import Mathlib

/-!
# Verification of the osmmcp request-resolution core

A shallow embedding of the Go sources of the `osmmcp` repository, together
with proofs settling a fixed list of claims about them.

Embedded components (file ↦ section):
* `pkg/osm` polyline codec (`DecodePolyline`, `EncodePolyline`, `encodeSigned`)
* `pkg/cache/cache.go` (`TTLCache`, `Item`, `SetWithTTL`, `Get`, `evictOldest`)
* `pkg/osm/ratelimit.go` (`RateLimiter.Wait`) and `pkg/osm/client.go`
  (`waitForRateLimit`)
* the geocoding tool (`sanitizeAddress`, `ensureRegion`, the fallback query
  assembly of `HandleGeocodeAddress`, `withRetry`, and the rank-and-select
  step)

Modelling conventions: Go `int`/`int64` become `Int` (the values handled by
this program — nanosecond timestamps, scaled 1e-5 coordinates, retry counts —
stay far below 2^62, so overflow never fires and unbounded integers agree with
the machine semantics); Go `float64` becomes `ℚ` (all arithmetic the claims
touch is decimal-exact); wall-clock time is passed explicitly as a nanosecond
`Int`; fallible calls return `Except`; the external HTTP world is abstracted
as an oracle function supplied per call.  Rational literals are written with
`mkRat` so that every definition kernel-evaluates.
-/

/-! ## Polyline codec — `pkg/osm` polyline file -/

/-- Zig-zag encoding of a signed integer, from `encodeSigned`:
`s := value << 1; if value < 0 { s = ^s }`.  On two's-complement integers
`value << 1 = 2 * value` and `^s = -s - 1`, which is how the bitwise
complement is rendered on unbounded `Int`. -/
def zigzag (value : Int) : Int :=
  let s := value * 2
  if value < 0 then -s - 1 else s

/-- Inverse of the zig-zag step, from `DecodePolyline`:
`(result >> 1) ^ (-(result & 1))`.  For even `result` this is `result / 2`;
for odd `result` the xor with `-1` is a bitwise complement, giving
`-(result / 2) - 1`. -/
def unzigzag (r : Nat) : Int :=
  if r % 2 = 1 then -((r / 2 : Nat) : Int) - 1 else ((r / 2 : Nat) : Int)

/-- Bottom half of `encodeSigned`: emit an unsigned value in 5-bit groups,
least-significant first, OR-ing `0x20` into every group but the last and
adding 63 to every emitted byte (`s & 0x1f = s % 32`, `s >> 5 = s / 32`). -/
def encodeChunks (s : Nat) : List Nat :=
  if h : s < 0x20 then [s + 63]
  else ((0x20 ||| (s % 32)) + 63) :: encodeChunks (s / 32)
termination_by s
decreasing_by
  exact Nat.div_lt_self (by omega) (by omega)

/-- `encodeSigned` from the source: zig-zag then 5-bit chunking. -/
def encodeSigned (value : Int) : List Nat :=
  encodeChunks (zigzag value).toNat

/-- One inner loop of `DecodePolyline`: consume bytes (already as numeric
char codes), accumulating `result |= (b & 0x1f) << shift` with `shift += 5`,
stopping after the first byte with `b < 0x20` (or at end of input, as the
source's bounds check does). -/
def decodeSignedGo : List Nat → Nat → Nat → Nat × List Nat
  | [], _, acc => (acc, [])
  | c :: rest, shift, acc =>
    let b : Int := (c : Int) - 63
    let acc' := acc ||| ((b.emod 32).toNat <<< shift)
    if b < 0x20 then (acc', rest) else decodeSignedGo rest (shift + 5) acc'

/-- Outer loop of `DecodePolyline` over integer (1e-5 scaled) coordinates:
decode a latitude delta then a longitude delta, accumulate both. -/
def decodeLoop : List Nat → Int → Int → List (Int × Int)
  | [], _, _ => []
  | c :: rest, lat, lng =>
    let p1 := decodeSignedGo (c :: rest) 0 0
    let lat' := lat + unzigzag p1.1
    let p2 := decodeSignedGo p1.2 0 0
    let lng' := lng + unzigzag p2.1
    (lat', lng') :: decodeLoop p2.2 lat' lng'
termination_by l _ _ => l.length
decreasing_by
  have hle : ∀ (l : List Nat) (s a : Nat),
      (decodeSignedGo l s a).2.length ≤ l.length := by
    intro l
    induction l with
    | nil => intro s a; simp [decodeSignedGo]
    | cons x xs ih =>
      intro s a
      simp only [decodeSignedGo]
      split
      · simp
      · exact le_trans (ih _ _) (Nat.le_succ _)
  have h1 : (decodeSignedGo (c :: rest) 0 0).2.length ≤ rest.length := by
    simp only [decodeSignedGo]
    split
    · simp
    · exact hle _ _ _
  calc (decodeSignedGo (decodeSignedGo (c :: rest) 0 0).2 0 0).2.length
      ≤ (decodeSignedGo (c :: rest) 0 0).2.length := hle _ _ _
    _ ≤ rest.length := h1
    _ < rest.length + 1 := Nat.lt_succ_self _

/-- Loop of `EncodePolyline` over integer (1e-5 scaled) coordinates:
delta-encode each point against the previous one. -/
def encodeLoop : List (Int × Int) → Int → Int → List Nat
  | [], _, _ => []
  | (lat, lng) :: rest, prevLat, prevLng =>
    encodeSigned (lat - prevLat) ++ encodeSigned (lng - prevLng) ++
      encodeLoop rest lat lng

/-- Rounding used by `EncodePolyline`: `int(math.Round(x))`, which rounds
half away from zero; for `q ≥ 0` it is `⌊q + 1/2⌋` and for `q < 0` it is
`-⌊-q + 1/2⌋`. -/
def goRound (q : ℚ) : Int :=
  if q < 0 then -⌊-q + mkRat 1 2⌋ else ⌊q + mkRat 1 2⌋

/-- `EncodePolyline`: scale each coordinate by 1e5 (`mkRat 100000 1` keeps
the literal kernel-computable), round, delta-encode, and render the emitted
bytes (all printable ASCII) as a string. -/
def EncodePolyline (points : List (ℚ × ℚ)) : String :=
  String.mk ((encodeLoop
    (points.map (fun p =>
      (goRound (p.1 * mkRat 100000 1), goRound (p.2 * mkRat 100000 1))))
    0 0).map Char.ofNat)

/-- `DecodePolyline`: decode the byte stream and scale the accumulated
integer coordinates back by 1e-5 (`mkRat n 100000` is the exact rational
`n / 100000`). -/
def DecodePolyline (encoded : String) : List (ℚ × ℚ) :=
  (decodeLoop (encoded.toList.map Char.toNat) 0 0).map
    (fun p => (mkRat p.1 100000, mkRat p.2 100000))

/-! ## TTL cache — `pkg/cache/cache.go`

The Go map is modelled as an association list whose keys are kept distinct;
`time.Now()` is passed explicitly in nanoseconds.  The background cleanup
goroutine is time-driven and outside the functional model (the source itself
documents the lazy check in `Get` as the correctness-bearing path). -/

/-- `Item` of `cache.go`: a stored value with an absolute expiration time in
nanoseconds; `Expiration = 0` means no expiration. -/
structure Item (α : Type) where
  value : α
  expiration : Int
deriving DecidableEq

/-- `Item.Expired`: `Expiration != 0 && time.Now().UnixNano() > Expiration`. -/
def Item.expired (item : Item α) (now : Int) : Bool :=
  if item.expiration = 0 then false else decide (now > item.expiration)

/-- `TTLCache` of `cache.go` (mutex and cleanup-timer fields are concurrency
plumbing with no functional content and are not carried). -/
structure TTLCache (α : Type) where
  items : List (String × Item α)
  defaultTTL : Int
  maxItems : Int

/-- `math.MaxInt64`, the sentinel `evictOldest` substitutes for a missing
expiration so that unexpiring entries sort last. -/
def maxInt64 : Int := 2 ^ 63 - 1

/-- The eviction key used by `evictOldest`: the entry's expiration, with `0`
(no expiration) replaced by `math.MaxInt64`. -/
def effectiveExp (e : Int) : Int := if e = 0 then maxInt64 else e

/-- Ordering on `(key, expiration)` pairs used by `evictOldest`'s sort. -/
def expOrder (a b : String × Int) : Prop := a.2 ≤ b.2

instance : DecidableRel expOrder := fun a b =>
  inferInstanceAs (Decidable (a.2 ≤ b.2))

instance : IsTotal (String × Int) expOrder := ⟨fun a b => le_total a.2 b.2⟩

instance : IsTrans (String × Int) expOrder := ⟨fun _ _ _ h h' => le_trans h h'⟩

/-- `TTLCache.evictOldest`: if over capacity, sort all `(key, expiration)`
pairs oldest-expiring first (no-expiration entries pinned to `MaxInt64`) and
delete the first `len(items) - maxItems` keys. -/
def TTLCache.evictOldest (c : TTLCache α) : TTLCache α :=
  let itemsToRemove : Int := (c.items.length : Int) - c.maxItems
  if itemsToRemove ≤ 0 then c
  else
    let keyExpirations := c.items.map (fun kv => (kv.1, effectiveExp kv.2.expiration))
    let sorted := keyExpirations.insertionSort expOrder
    let victims := (sorted.take itemsToRemove.toNat).map Prod.fst
    { c with items := c.items.filter (fun kv => !victims.contains kv.1) }

/-- `TTLCache.SetWithTTL`: store the value under the key (replacing any old
entry), stamping `now + ttl` as expiration when `ttl > 0` and `0` otherwise;
evict when the insertion pushed the count over a positive `maxItems`. -/
def TTLCache.setWithTTL (c : TTLCache α) (key : String) (value : α)
    (ttl now : Int) : TTLCache α :=
  let expiration : Int := if ttl > 0 then now + ttl else 0
  let items' := c.items.filter (fun kv => kv.1 != key) ++ [(key, ⟨value, expiration⟩)]
  let c' : TTLCache α := { c with items := items' }
  if c.maxItems > 0 ∧ (items'.length : Int) > c.maxItems then c'.evictOldest else c'

/-- `TTLCache.Set`: store with the cache's default TTL. -/
def TTLCache.set (c : TTLCache α) (key : String) (value : α) (now : Int) :
    TTLCache α :=
  c.setWithTTL key value c.defaultTTL now

/-- `TTLCache.Get`: miss on absent keys; a present entry that `Expired` says
is stale is deleted as a side effect and reported as a miss; otherwise the
stored value is returned.  The returned cache carries the side effect. -/
def TTLCache.get (c : TTLCache α) (key : String) (now : Int) :
    Option α × TTLCache α :=
  match c.items.find? (fun kv => kv.1 == key) with
  | none => (none, c)
  | some kv =>
    if kv.2.expired now then
      (none, { c with items := c.items.filter (fun kv2 => kv2.1 != key) })
    else
      (some kv.2.value, c)

/-! ## Rate limiter — `pkg/osm/ratelimit.go` and `pkg/osm/client.go`

Token buckets block on wall-clock time, which has no shallow embedding; the
bucket's own `Wait(ctx)` is therefore abstracted as an oracle
`bucketWait : String → Except String Unit` giving the outcome of waiting on
the named service's bucket.  The claims under study only concern the
dispatching around that call, which is embedded faithfully. -/

def ServiceNominatim : String := "nominatim"

def ServiceOverpass : String := "overpass"

def ServiceOSRM : String := "osrm"

/-- `RateLimiter` of `ratelimit.go`: registry of services that have a
configured token bucket. -/
structure RateLimiter where
  limiters : List String

/-- The singleton built by `GetRateLimiter`: buckets for exactly the three
known services. -/
def getRateLimiter : RateLimiter :=
  ⟨[ServiceNominatim, ServiceOverpass, ServiceOSRM]⟩

/-- `RateLimiter.Wait`: look the service up; with no bucket configured it
returns the error `no rate limiter defined for service: <name>`, otherwise it
forwards the bucket's own wait outcome. -/
def RateLimiter.wait (rl : RateLimiter)
    (bucketWait : String → Except String Unit) (service : String) :
    Except String Unit :=
  if rl.limiters.contains service then bucketWait service
  else .error ("no rate limiter defined for service: " ++ service)

/-- Host of `NominatimBaseURL` (`pkg/osm/util.go`). -/
def hostNominatim : String := "nominatim.openstreetmap.org"

/-- Host of `OverpassBaseURL` (`pkg/osm/util.go`). -/
def hostOverpass : String := "overpass-api.de"

/-- Host of `OSRMBaseURL` (`pkg/osm/util.go`). -/
def hostOSRM : String := "router.project-osrm.org"

/-- `waitForRateLimit` of `client.go`: dispatch on the request's host; the
three known hosts wait on their limiter, every other host is not rate
limited at all (`default: return nil`). -/
def waitForRateLimit (bucketWait : String → Except String Unit)
    (host : String) : Except String Unit :=
  if host = hostNominatim then bucketWait ServiceNominatim
  else if host = hostOverpass then bucketWait ServiceOverpass
  else if host = hostOSRM then bucketWait ServiceOSRM
  else .ok ()

/-! ## Retrying request executor — `withRetry` in the geocoding tool

`osm.DoRequest` on attempt `i` is abstracted as an oracle
`doRequest : Nat → AttemptOutcome`; the `time.After(delay)` suspensions are
recorded in a list of waited durations (milliseconds) instead of sleeping.
Context cancellation during the backoff wait is a real-time event outside the
model; the oracle's outcomes cover transport errors and HTTP statuses. -/

/-- Response shape `withRetry` inspects: only the status code matters. -/
structure HttpResponse where
  statusCode : Nat
deriving DecidableEq

/-- Outcome of one `osm.DoRequest` call: a transport error or a response. -/
inductive AttemptOutcome where
  | failure (err : String)
  | response (resp : HttpResponse)
deriving DecidableEq

/-- The success test of `withRetry`: `err == nil && resp.StatusCode == 200`. -/
def AttemptOutcome.isOk : AttemptOutcome → Bool
  | .response r => r.statusCode == 200
  | .failure _ => false

/-- The error `withRetry` records for a failed attempt: the transport error
itself, or `fmt.Errorf("HTTP status %d", ...)` for a non-200 response. -/
def AttemptOutcome.errString : AttemptOutcome → String
  | .failure e => e
  | .response r => "HTTP status " ++ toString r.statusCode

/-- The response carried by a successful outcome (only ever read under
`isOk`, which rules the `failure` arm out). -/
def AttemptOutcome.respOf : AttemptOutcome → HttpResponse
  | .response r => r
  | .failure _ => ⟨0⟩

/-- Loop body of `withRetry`: `remaining` counts the attempts still allowed,
`attempt` is the index of the next attempt, `delay` the current backoff.
Before every attempt but the first the loop waits `delay` (recorded in
`waits`) and doubles it; a transport error or a non-200 status is recorded
as the last error and retried; exhaustion wraps the last error as
`max retries reached: <err>`. -/
def withRetryGo (doRequest : Nat → AttemptOutcome) :
    Nat → Nat → Nat → List Nat → Option String →
    Except String HttpResponse × List Nat
  | 0, _, _, waits, lastErr =>
    (.error ("max retries reached: " ++ lastErr.getD ""), waits)
  | r + 1, attempt, delay, waits, _ =>
    let waits' := if attempt > 0 then waits ++ [delay] else waits
    let delay' := if attempt > 0 then delay * 2 else delay
    match doRequest attempt with
    | .response resp =>
      if resp.statusCode == 200 then (.ok resp, waits')
      else withRetryGo doRequest r (attempt + 1) delay' waits'
        (some ("HTTP status " ++ toString resp.statusCode))
    | .failure e => withRetryGo doRequest r (attempt + 1) delay' waits' (some e)

/-- `withRetry(ctx, req, maxAttempts, initialDelay)`: run the loop from
attempt 0 with the initial backoff delay. -/
def withRetry (doRequest : Nat → AttemptOutcome) (maxAttempts : Nat)
    (initialDelay : Nat) : Except String HttpResponse × List Nat :=
  withRetryGo doRequest maxAttempts 0 initialDelay [] none

/-- `maxRetries` constant of the geocoding tool. -/
def maxRetries : Nat := 3

/-- `initialBackoff` constant of the geocoding tool, in milliseconds. -/
def initialBackoff : Nat := 500

/-- Index of the first attempt the success test accepts, the specification
the retry loop is checked against. -/
def firstSuccessIdx (doRequest : Nat → AttemptOutcome) (maxAttempts : Nat) :
    Option Nat :=
  (List.range maxAttempts).find? (fun i => (doRequest i).isOk)

/-! ## Address sanitization and the fallback query pipeline

Character classes: Go's regexp `\s` is exactly `[\t\n\f\r ]`, while
`strings.TrimSpace`/`strings.Fields` use `unicode.IsSpace`, which on Latin-1
additionally accepts `\v`, U+0085 and U+00A0.  The embedding carries both
classes on the Latin-1 range (the wider Unicode `Zs` block does not occur in
any input of this development). -/

/-- Go regexp `\s`: `[\t\n\f\r ]`. -/
def isRegexSpace (c : Char) : Bool :=
  c == ' ' || c == '\t' || c == '\n' || c == '\x0c' || c == '\r'

/-- `unicode.IsSpace` on the Latin-1 range. -/
def isUnicodeSpace (c : Char) : Bool :=
  isRegexSpace c || c == '\x0b' || c == '\x85' || c == '\xa0'

/-- `strings.TrimSpace`: drop leading and trailing Unicode whitespace. -/
def trimChars (l : List Char) : List Char :=
  ((l.dropWhile isUnicodeSpace).reverse.dropWhile isUnicodeSpace).reverse

/-- `regexp \s+` replaced by a single space: every maximal run of regexp
whitespace collapses to one `' '`. -/
def collapseWS : List Char → List Char
  | [] => []
  | c :: rest =>
    if isRegexSpace c then ' ' :: collapseWS (rest.dropWhile isRegexSpace)
    else c :: collapseWS rest
termination_by l => l.length
decreasing_by
  · have : (rest.dropWhile isRegexSpace).length ≤ rest.length := by
      induction rest with
      | nil => simp
      | cons x xs ih =>
        by_cases hx : isRegexSpace x
        · simp only [List.dropWhile_cons, hx, if_true]
          exact le_trans ih (Nat.le_succ _)
        · simp [List.dropWhile_cons, hx]
    simp only [List.length_cons]
    omega
  · simp only [List.length_cons]
    omega

/-- Leftmost match of the Go regexp `\(([^)]*)\)`: the segment before the
first `'('`, the (greedy, `')'`-free) captured content between that `'('`
and the next `')'`, and the remainder after that `')'`; `none` when no
`'('` followed by a `')'` exists. -/
def findParenMatch (l : List Char) : Option (List Char × List Char × List Char) :=
  match l.dropWhile (fun c => c != '(') with
  | [] => none
  | _ :: afterParen =>
    match afterParen.dropWhile (fun c => c != ')') with
    | [] => none
    | _ :: post =>
      some (l.takeWhile (fun c => c != '('),
        afterParen.takeWhile (fun c => c != ')'), post)

/-- `reParens.ReplaceAllString(address, " ")`: replace every (non-overlapping,
leftmost-first) parenthetical group with a single space. -/
def replaceAllParens (l : List Char) : List Char :=
  match h : findParenMatch l with
  | some (pre, _, post) => pre ++ ' ' :: replaceAllParens post
  | none => l
termination_by l.length
decreasing_by
  have hdw : ∀ (p : Char → Bool) (m : List Char),
      (m.dropWhile p).length ≤ m.length := by
    intro p m
    induction m with
    | nil => simp
    | cons x xs ih =>
      by_cases hx : p x
      · simp only [List.dropWhile_cons, hx, if_true]
        exact le_trans ih (Nat.le_succ _)
      · simp [List.dropWhile_cons, hx]
  simp only [findParenMatch] at h
  split at h
  · simp at h
  · split at h
    · simp at h
    · rename_i y1 a afterParen hd1 y2 b post' hd2
      simp only [Option.some.injEq, Prod.mk.injEq] at h
      have hp : post'.length = post.length := by rw [h.2.2]
      have h1 : afterParen.length + 1 ≤ l.length := by
        have := hdw (fun c => c != '(') l
        rw [hd1] at this
        simpa using this
      have h2 : post'.length + 1 ≤ afterParen.length := by
        have := hdw (fun c => c != ')') afterParen
        rw [hd2] at this
        simpa using this
      omega

/-- `sanitizeAddress`: trim, collapse whitespace, and when a parenthetical
group is present return (text with every group replaced by a space, trimmed
and re-collapsed; the first group's content, trimmed).  Without a group the
collapsed text is returned with an empty parenthetical part. -/
def sanitizeAddress (address : String) : String × String :=
  let a := collapseWS (trimChars address.toList)
  match findParenMatch a with
  | none => (String.mk a, "")
  | some (_, content, _) =>
    (String.mk (collapseWS (trimChars (replaceAllParens a))),
     String.mk (trimChars content))

/-- Prefix test used by the substring search below. -/
def startsWithChars : List Char → List Char → Bool
  | _, [] => true
  | [], _ :: _ => false
  | c :: rest, d :: ds => c == d && startsWithChars rest ds

/-- `strings.Contains`: `sub` occurs somewhere inside `l` (an empty `sub`
always occurs). -/
def containsSub (l sub : List Char) : Bool :=
  if startsWithChars l sub then true
  else
    match l with
    | [] => false
    | _ :: rest => containsSub rest sub

/-- `strings.Fields`: split on runs of Unicode whitespace, dropping empty
fields. -/
def fields (l : List Char) : List (List Char) :=
  match h : l.dropWhile isUnicodeSpace with
  | [] => []
  | c :: rest =>
    ((c :: rest).takeWhile (fun d => !isUnicodeSpace d)) ::
      fields ((c :: rest).dropWhile (fun d => !isUnicodeSpace d))
termination_by l.length
decreasing_by
  have hdw : ∀ (p : Char → Bool) (m : List Char),
      (m.dropWhile p).length ≤ m.length := by
    intro p m
    induction m with
    | nil => simp
    | cons x xs ih =>
      by_cases hx : p x
      · simp only [List.dropWhile_cons, hx, if_true]
        exact le_trans ih (Nat.le_succ _)
      · simp [List.dropWhile_cons, hx]
  have hhead : isUnicodeSpace c = false := by
    have := List.head?_dropWhile_not isUnicodeSpace l
    rw [h] at this
    simpa using this
  have hlen : (c :: rest).length ≤ l.length := by
    have := hdw isUnicodeSpace l
    rw [h] at this
    exact this
  have : ((c :: rest).dropWhile (fun d => !isUnicodeSpace d)).length
      < (c :: rest).length := by
    simp only [List.dropWhile_cons, hhead, Bool.not_false, if_true]
    exact Nat.lt_succ_of_le (hdw _ _)
  omega

/-- `ensureRegion`: leave the query alone when the region is empty or already
contained in it; otherwise append the region to comma-free queries of fewer
than three words. -/
def ensureRegion (query region : String) : String :=
  if region = "" || containsSub query.toList region.toList then query
  else if containsSub query.toList [','] then query
  else if (fields query.toList).length < 3 then query ++ " " ++ region
  else query

/-- The `seen`-map deduplication of `HandleGeocodeAddress`: keep the first
occurrence of every query, preserving order. -/
def dedupQueries (seen : List String) : List String → List String
  | [] => []
  | q :: rest =>
    if seen.contains q then dedupQueries seen rest
    else q :: dedupQueries (q :: seen) rest

/-- The fallback `querySequence` assembly of `HandleGeocodeAddress`:
(1) the sanitized without-parens text when non-empty and different from the
raw input, (2) the parenthetical content when non-empty, (3) always the
original text — each passed through `ensureRegion` — then deduplicated. -/
def buildQuerySequence (address region : String) : List String :=
  let wp := (sanitizeAddress address).1
  let pc := (sanitizeAddress address).2
  let q1 : List String :=
    if wp ≠ "" ∧ wp ≠ address then [ensureRegion wp region] else []
  let q2 : List String := if pc ≠ "" then [ensureRegion pc region] else []
  dedupQueries [] (q1 ++ q2 ++ [ensureRegion address region])

/-! ## Result ranking and selection in `HandleGeocodeAddress` -/

/-- Address sub-record of `NominatimResult`. -/
structure NominatimAddress where
  road : String
  houseNumber : String
  city : String
  town : String
  state : String
  country : String
  postCode : String
deriving DecidableEq

/-- `NominatimResult` of the geocoding tool; `Importance` (a `float64` whose
decimal values are exact here) drives ranking. -/
structure NominatimResult where
  placeID : String
  displayName : String
  lat : String
  lon : String
  osmType : String
  importance : ℚ
  address : NominatimAddress
deriving DecidableEq

/-- `minImportance = 0.4`, the selection threshold of the geocoding tool. -/
def minImportance : ℚ := mkRat 4 10

/-- `maxResults = 3`, the Nominatim result limit of the geocoding tool. -/
def maxResults : Nat := 3

/-- Descending-importance order used by
`sort.Slice(allResults, func(i, j) { return imp_i > imp_j })`. -/
def moreImportant (a b : NominatimResult) : Prop :=
  b.importance ≤ a.importance

instance : DecidableRel moreImportant := fun a b =>
  inferInstanceAs (Decidable (b.importance ≤ a.importance))

instance : IsTotal NominatimResult moreImportant :=
  ⟨fun a b => le_total b.importance a.importance⟩

instance : IsTrans NominatimResult moreImportant :=
  ⟨fun _ _ _ h h' => le_trans h' h⟩

/-- The descending-importance sort of `HandleGeocodeAddress` (the Go sort is
an unstable comparison sort; any descending reordering is admissible, and the
embedding fixes insertion sort). -/
def sortResults (l : List NominatimResult) : List NominatimResult :=
  l.insertionSort moreImportant

/-- The `bestResultIndex` loop: first index whose importance meets
`minImportance`, or 0 when none does. -/
def bestResultIndex (l : List NominatimResult) : Nat :=
  (l.findIdx? (fun r => decide (minImportance ≤ r.importance))).getD 0

/-- The rank-and-select step on the winning query's results: sort by
descending importance, then pick `sorted[bestResultIndex sorted]`. -/
def selectBest (l : List NominatimResult) : Option NominatimResult :=
  (sortResults l).get? (bestResultIndex (sortResults l))

/-- The query loop of `HandleGeocodeAddress`, with the lookup (cache +
singleflight + HTTP) abstracted as an oracle: a failed lookup (`Except.error`)
or an empty result set advances to the next candidate; the first candidate
with a non-empty result set wins. -/
def tryQueries (lookup : String → Except Unit (List NominatimResult)) :
    List String → Option (String × List NominatimResult)
  | [] => none
  | q :: rest =>
    match lookup q with
    | .error _ => tryQueries lookup rest
    | .ok results =>
      if results.length > 0 then some (q, results) else tryQueries lookup rest

/-! ## Fixtures used by witnesses and counterexamples -/

/-- Test-fixture builder: a result with the given name and importance and
empty auxiliary fields. -/
def mkResult (name : String) (imp : ℚ) : NominatimResult :=
  ⟨"1", name, "0", "0", "node", imp, ⟨"", "", "", "", "", "", ""⟩⟩

instance : DecidableEq (Except String Unit) := fun a b =>
  match a, b with
  | .ok x, .ok y => decidable_of_iff (x = y) (by simp)
  | .error e, .error e' => decidable_of_iff (e = e') (by simp)
  | .ok _, .error _ => isFalse (by simp)
  | .error _, .ok _ => isFalse (by simp)

instance : DecidableEq (Except String HttpResponse) := fun a b =>
  match a, b with
  | .ok x, .ok y => decidable_of_iff (x = y) (by simp)
  | .error e, .error e' => decidable_of_iff (e = e') (by simp)
  | .ok _, .error _ => isFalse (by simp)
  | .error _, .ok _ => isFalse (by simp)

/-- Specification predicate: no two adjacent characters are both regexp
whitespace. -/
def noAdjacentWS : List Char → Bool
  | [] => true
  | [_] => true
  | c :: c2 :: rest =>
    (!(isRegexSpace c && isRegexSpace c2)) && noAdjacentWS (c2 :: rest)

/-- Specification predicate: the first character, if any, is not whitespace. -/
def headNotWS (l : List Char) : Bool :=
  match l with
  | [] => true
  | c :: _ => !isUnicodeSpace c

/-- Specification predicate: the last character, if any, is not whitespace. -/
def lastNotWS (l : List Char) : Bool :=
  match l.getLast? with
  | none => true
  | some c => !isUnicodeSpace c

/-- Specification predicate for a trimmed, whitespace-collapsed string: no
adjacent whitespace pair, every remaining regexp-whitespace character is a
plain space, and neither end is whitespace. -/
def wsNormalized (l : List Char) : Bool :=
  noAdjacentWS l && l.all (fun c => !isRegexSpace c || c == ' ') &&
    headNotWS l && lastNotWS l

/-- Fixture: a one-entry cache with capacity 1 (for eviction witnesses). -/
def cacheFixC5 : TTLCache Nat := ⟨[("a", ⟨5, 100⟩)], 0, 1⟩

/-- Fixture: an empty unbounded cache (for visibility witnesses). -/
def cacheFixC6 : TTLCache Nat := ⟨[], 0, 0⟩

/-- Fixture: every attempt fails with a transport error. -/
def attemptsAllFail : Nat → AttemptOutcome := fun _ => .failure "boom"

/-- Fixture: two transport failures, then a 200 response. -/
def attemptsThirdOk : Nat → AttemptOutcome := fun i =>
  if i < 2 then .failure "boom" else .response ⟨200⟩

/-- Fixture: a lookup oracle failing on `q1` and succeeding on `q2`. -/
def lookupFix : String → Except Unit (List NominatimResult) := fun q =>
  if q = "q2" then .ok [mkResult "hit" (mkRat 1 2)] else .error ()

/-- The item list right after `SetWithTTL` stores its entry (for a key not
previously present), before any eviction runs: the old items plus the new
entry with its stamped expiration.  Used to state the eviction claim. -/
def afterInsert {α : Type} (c : TTLCache α) (key : String) (v : α)
    (ttl now : Int) : List (String × Item α) :=
  c.items ++ [(key, ⟨v, if ttl > 0 then now + ttl else 0⟩)]

/-- The `(key, effective expiration)` view `evictOldest` sorts by. -/
def expView {α : Type} (l : List (String × Item α)) : List (String × Int) :=
  l.map (fun kv => (kv.1, effectiveExp kv.2.expiration))


/-! ## Kernel computability

The five definitions below are compiled by well-founded recursion; they are
unsealed so that concrete test vectors evaluate inside `decide`/`rfl`
proofs. -/

unseal encodeChunks decodeLoop collapseWS replaceAllParens fields

/-! ## Helper lemmas -/

theorem find_in_filtered_append {α : Type} (l : List (String × Item α))
    (key : String) (it : Item α) :
    ((l.filter (fun kv => kv.1 != key)) ++ [(key, it)]).find?
      (fun kv => kv.1 == key) = some (key, it) := by
  induction l with
  | nil => simp [List.find?]
  | cons x xs ih =>
    by_cases hx : x.1 = key
    · simp only [List.filter_cons, hx, bne_self_eq_false, List.cons_append]
      exact ih
    · have : (x.1 != key) = true := by simpa using hx
      simp only [List.filter_cons, this, if_true, List.cons_append, List.find?]
      have : (x.1 == key) = false := by simpa using hx
      rw [this]
      exact ih

theorem find_in_filtered_none {α : Type} (l : List (String × Item α))
    (key : String) :
    (l.filter (fun kv => kv.1 != key)).find? (fun kv => kv.1 == key) = none := by
  induction l with
  | nil => simp [List.find?]
  | cons x xs ih =>
    by_cases hx : x.1 = key
    · simp only [List.filter_cons, hx, bne_self_eq_false]
      exact ih
    · have h1 : (x.1 != key) = true := by simpa using hx
      simp only [List.filter_cons, h1, if_true, List.find?]
      have h2 : (x.1 == key) = false := by simpa using hx
      rw [h2]
      exact ih

/-! ## Claim C3 — rate-limiter behavior on unknown service names -/

/-- Claim C3, counterexample: the spec says `RateLimiter.Wait` fails open on
an unknown service, but the code returns the error
`no rate limiter defined for service: <name>`; here the globally configured
limiter rejects the unconfigured service `tileservice`. -/
theorem claim_C3_counterexample :
    getRateLimiter.wait (fun _ => .ok ()) "tileservice" =
      .error "no rate limiter defined for service: tileservice" ∧
    getRateLimiter.wait (fun _ => .ok ()) "tileservice" ≠ .ok () := by
  constructor
  · decide
  · decide

/-- Claim C3, amended: for every service name with no configured bucket,
`RateLimiter.Wait` returns the error `no rate limiter defined for service:`
(fail-closed); the fail-open path lives in `waitForRateLimit` of `client.go`,
which skips rate limiting entirely — independently of all bucket state — for
any host that is not one of the three known service hosts. -/
theorem claim_C3_amended :
    (∀ (w : String → Except String Unit) (s : String),
       getRateLimiter.limiters.contains s = false →
       getRateLimiter.wait w s =
         .error ("no rate limiter defined for service: " ++ s)) ∧
    (∀ (w w' : String → Except String Unit) (h : String),
       h ≠ hostNominatim → h ≠ hostOverpass → h ≠ hostOSRM →
       waitForRateLimit w h = .ok () ∧
       waitForRateLimit w h = waitForRateLimit w' h) := by
  constructor
  · intro w s hs
    simp only [RateLimiter.wait, hs, Bool.false_eq_true, if_false]
  · intro w w' h h1 h2 h3
    simp [waitForRateLimit, h1, h2, h3]

/-- Claim C3, witness: the amended theorem applied to the service name
`tileservice` and the host `example.com`. -/
theorem claim_C3_witness :
    getRateLimiter.wait (fun _ => .error "ctx") "tileservice" =
      .error "no rate limiter defined for service: tileservice" ∧
    waitForRateLimit (fun _ => .error "ctx") "example.com" = .ok () :=
  ⟨(claim_C3_amended.1 (fun _ => .error "ctx") "tileservice" (by decide)).trans
      (by decide),
   (claim_C3_amended.2 (fun _ => .error "ctx") (fun _ => .ok ()) "example.com"
      (by decide) (by decide) (by decide)).1⟩

/-! ## Claim C6 — cache TTL visibility -/

theorem setWithTTL_no_evict {α : Type} (c : TTLCache α) (key : String) (v : α)
    (ttl now : Int) (hmax : c.maxItems ≤ 0) :
    c.setWithTTL key v ttl now =
      ⟨c.items.filter (fun kv => kv.1 != key) ++
        [(key, ⟨v, if ttl > 0 then now + ttl else 0⟩)],
       c.defaultTTL, c.maxItems⟩ := by
  simp only [TTLCache.setWithTTL]
  rw [if_neg]
  intro hc
  omega

/-- Claim C6, counterexample: with an entry stored at `now₀ = 1` and
`ttl = 100` (so `expiresAt = 101`), `Get` at the exact instant `now = 101`
still returns the value, although `now < expiresAt` is false — the code's
`Expired` test is `now > expiresAt`, so visibility holds at the boundary. -/
theorem claim_C6_counterexample :
    ((cacheFixC6.setWithTTL "k" 7 100 1).get "k" 101).1 = some 7 ∧
    ¬((101 : Int) < 1 + 100) := by
  constructor
  · decide
  · decide

/-- Claim C6, amended: an entry stored with `SetWithTTL` is visible to `Get`
iff the current time is at or before its expiration (`now ≤ expiresAt`,
i.e. also at the exact expiration instant) or the entry was stored with
`ttl ≤ 0` (no expiration); a `Get` that discovers an expired entry deletes
it as a side effect and reports a miss. -/
theorem claim_C6_amended {α : Type} (c : TTLCache α) (key : String) (v : α)
    (ttl now0 now : Int) (hmax : c.maxItems ≤ 0) (hnow0 : 0 < now0) :
    (((c.setWithTTL key v ttl now0).get key now).1 = some v ↔
      (ttl ≤ 0 ∨ now ≤ now0 + ttl)) ∧
    (0 < ttl → now0 + ttl < now →
      ((c.setWithTTL key v ttl now0).get key now).1 = none ∧
      ((c.setWithTTL key v ttl now0).get key now).2.items.find?
        (fun kv => kv.1 == key) = none) := by
  rw [setWithTTL_no_evict c key v ttl now0 hmax]
  by_cases ht : ttl > 0
  · have hexp : (if ttl > 0 then now0 + ttl else 0) = now0 + ttl := if_pos ht
    rw [hexp]
    have hne : ¬(now0 + ttl = 0) := by omega
    by_cases hnw : now > now0 + ttl
    · have hexpired : (Item.mk v (now0 + ttl)).expired now = true := by
        simp [Item.expired, hne, hnw]
      constructor
      · simp only [TTLCache.get, find_in_filtered_append, hexpired, if_true]
        constructor
        · intro h; cases h
        · intro h; omega
      · intro _ _
        simp only [TTLCache.get, find_in_filtered_append, hexpired, if_true]
        refine ⟨trivial, ?_⟩
        rw [List.filter_append]
        have h1 : List.filter (fun kv => kv.1 != key)
            [((key : String), (Item.mk v (now0 + ttl)))] = [] := by
          simp
        rw [h1, List.append_nil, List.filter_filter]
        have h2 : ∀ kv : String × Item α,
            ((kv.1 != key) && (kv.1 != key)) = (kv.1 != key) := by
          intro kv; exact Bool.and_self _
        calc List.find? (fun kv => kv.1 == key)
              (List.filter (fun kv => (kv.1 != key) && (kv.1 != key)) c.items)
            = List.find? (fun kv => kv.1 == key)
              (List.filter (fun kv => kv.1 != key) c.items) := by
              rw [List.filter_congr (fun kv _ => h2 kv)]
          _ = none := find_in_filtered_none c.items key
    · have hexpired : (Item.mk v (now0 + ttl)).expired now = false := by
        simp [Item.expired, hne, hnw]
      constructor
      · simp only [TTLCache.get, find_in_filtered_append, hexpired,
          Bool.false_eq_true, if_false]
        constructor
        · intro _; right; omega
        · intro _; trivial
      · intro _ hlt
        omega
  · have hexp : (if ttl > 0 then now0 + ttl else 0) = 0 := if_neg ht
    rw [hexp]
    have hexpired : (Item.mk v (0 : Int)).expired now = false := by
      simp [Item.expired]
    constructor
    · simp only [TTLCache.get, find_in_filtered_append, hexpired,
        Bool.false_eq_true, if_false]
      constructor
      · intro _; left; omega
      · intro _; trivial
    · intro hpos _
      omega

/-- Claim C6, witness: the amended theorem at a concrete cache — the value is
visible at the exact expiration instant 101, and at 200 the entry is both
reported missing and deleted. -/
theorem claim_C6_witness :
    ((cacheFixC6.setWithTTL "k" 7 100 1).get "k" 101).1 = some 7 ∧
    ((cacheFixC6.setWithTTL "k" 7 100 1).get "k" 200).1 = none ∧
    ((cacheFixC6.setWithTTL "k" 7 100 1).get "k" 200).2.items.find?
      (fun kv => kv.1 == "k") = none :=
  ⟨(claim_C6_amended cacheFixC6 "k" 7 100 1 101 (by decide) (by decide)).1.mpr
      (by omega),
   ((claim_C6_amended cacheFixC6 "k" 7 100 1 200 (by decide) (by decide)).2
      (by omega) (by omega)).1,
   ((claim_C6_amended cacheFixC6 "k" 7 100 1 200 (by decide) (by decide)).2
      (by omega) (by omega)).2⟩

/-! ## Claim C5 — capacity eviction -/

theorem filter_eq_self_of_fresh {α : Type} (l : List (String × Item α))
    (key : String) (h : ∀ kv ∈ l, kv.1 ≠ key) :
    l.filter (fun kv => kv.1 != key) = l := by
  apply List.filter_eq_self.mpr
  intro a ha
  simpa using h a ha

theorem length_filter_key {α : Type} :
    ∀ (l : List (String × Item α)) (k : String),
    (l.map Prod.fst).Nodup → k ∈ l.map Prod.fst →
    (l.filter (fun kv => kv.1 != k)).length + 1 = l.length := by
  intro l k
  induction l with
  | nil => intro _ h; simp at h
  | cons x xs ih =>
    intro hnd hk
    have hnd' : (xs.map Prod.fst).Nodup :=
      (List.nodup_cons.mp (by simpa using hnd)).2
    by_cases hx : x.1 = k
    · have hnotin : k ∉ xs.map Prod.fst := by
        rw [← hx]
        exact (List.nodup_cons.mp (by simpa using hnd)).1
      have hall : xs.filter (fun kv => kv.1 != k) = xs := by
        apply List.filter_eq_self.mpr
        intro a ha
        have hne : a.1 ≠ k := by
          intro he
          exact hnotin (he ▸ List.mem_map_of_mem Prod.fst ha)
        simpa using hne
      have hfx : (x.1 != k) = false := by simpa using hx
      simp [List.filter_cons, hfx, hall]
    · have hk' : k ∈ xs.map Prod.fst := by
        rcases (by simpa using hk : k = x.1 ∨ k ∈ xs.map Prod.fst) with h | h
        · exact absurd h.symm hx
        · exact h
      have hfx : (x.1 != k) = true := by simpa using hx
      have := ih hnd' hk'
      simp only [List.filter_cons, hfx, if_true, List.length_cons]
      omega

theorem evictOldest_one {α : Type} (items : List (String × Item α))
    (d maxI : Int) (hlen : (items.length : Int) = maxI + 1) (hmax : 0 < maxI) :
    ∃ hd tl, (expView items).insertionSort expOrder = hd :: tl ∧
      (TTLCache.evictOldest ⟨items, d, maxI⟩).items =
        items.filter (fun kv => kv.1 != hd.1) := by
  have hlentake : ((items.length : Int) - maxI) = 1 := by omega
  have hsortlen : ((expView items).insertionSort expOrder).length =
      items.length := by
    rw [List.length_insertionSort]
    simp [expView]
  have hne : ((expView items).insertionSort expOrder).length ≠ 0 := by
    rw [hsortlen]
    omega
  cases hs : (expView items).insertionSort expOrder with
  | nil => exact absurd (by rw [hs]; rfl) hne
  | cons hd tl =>
    refine ⟨hd, tl, rfl, ?_⟩
    simp only [TTLCache.evictOldest, expView] at *
    rw [hlentake]
    rw [if_neg (by norm_num)]
    rw [hs]
    simp only [Int.toNat_one, List.take_succ_cons, List.take_zero,
      List.map_cons, List.map_nil]
    apply List.filter_congr
    intro kv _
    by_cases hkv : kv.1 = hd.1 <;> simp [List.contains, hkv]

/-- Claim C5: when a `SetWithTTL` of a fresh key pushes a cache of capacity
`N > 0` from `N` to `N + 1` items, exactly `N` items remain, and the evicted
entry is one whose effective expiration (`MaxInt64` for no-expiration
entries, which are therefore evicted last) is least among all `N + 1` items;
every other entry survives unchanged. -/
theorem claim_C5 {α : Type} (c : TTLCache α) (key : String) (v : α)
    (ttl now N : Int)
    (hmaxN : c.maxItems = N) (hN : 0 < N)
    (hlen : (c.items.length : Int) = N)
    (hnodup : (c.items.map Prod.fst).Nodup)
    (hfresh : ∀ kv ∈ c.items, kv.1 ≠ key) :
    ((c.setWithTTL key v ttl now).items.length : Int) = N ∧
    ∃ vk vexp,
      (vk, vexp) ∈ expView (afterInsert c key v ttl now) ∧
      (∀ p ∈ expView (afterInsert c key v ttl now), vexp ≤ p.2) ∧
      (∀ kv ∈ afterInsert c key v ttl now,
         kv.1 ≠ vk → kv ∈ (c.setWithTTL key v ttl now).items) ∧
      (∀ kv ∈ (c.setWithTTL key v ttl now).items,
         kv ∈ afterInsert c key v ttl now ∧ kv.1 ≠ vk) := by
  have hinsnodup : ((afterInsert c key v ttl now).map Prod.fst).Nodup := by
    simp only [afterInsert, List.map_append, List.map_cons, List.map_nil]
    rw [List.nodup_append]
    refine ⟨hnodup, List.nodup_singleton _, ?_⟩
    intro a ha hb
    have hak : a = key := by simpa using hb
    obtain ⟨kv, hkv, hkva⟩ := List.mem_map.mp ha
    exact hfresh kv hkv (hkva.trans hak)
  have hset : c.setWithTTL key v ttl now =
      TTLCache.evictOldest
        ⟨afterInsert c key v ttl now, c.defaultTTL, c.maxItems⟩ := by
    simp only [TTLCache.setWithTTL, afterInsert]
    rw [filter_eq_self_of_fresh c.items key hfresh]
    split
    all_goals
      split
      · rfl
      · rename_i hcond
        exfalso
        apply hcond
        refine ⟨by omega, ?_⟩
        simp only [List.length_append, List.length_cons, List.length_nil]
        push_cast
        omega
  have hinslen : ((afterInsert c key v ttl now).length : Int) =
      c.maxItems + 1 := by
    simp only [afterInsert, List.length_append, List.length_cons,
      List.length_nil]
    push_cast
    omega
  obtain ⟨hd, tl, hs, hres⟩ :=
    evictOldest_one (afterInsert c key v ttl now) c.defaultTTL c.maxItems
      hinslen (by omega)
  have hresult : (c.setWithTTL key v ttl now).items =
      (afterInsert c key v ttl now).filter (fun kv => kv.1 != hd.1) := by
    rw [hset, hres]
  have hsorted :=
    List.sorted_insertionSort expOrder (expView (afterInsert c key v ttl now))
  rw [hs] at hsorted
  have hperm :=
    List.perm_insertionSort expOrder (expView (afterInsert c key v ttl now))
  rw [hs] at hperm
  have hmin : ∀ p ∈ expView (afterInsert c key v ttl now), hd.2 ≤ p.2 := by
    intro p hp
    have hp' : p ∈ hd :: tl := (hperm.mem_iff).mpr hp
    rcases List.mem_cons.mp hp' with h | h
    · rw [h]
    · exact List.rel_of_sorted_cons hsorted p h
  have hdmem : hd ∈ expView (afterInsert c key v ttl now) :=
    (hperm.mem_iff).mp (List.mem_cons_self _ _)
  have hkeymem : hd.1 ∈ (afterInsert c key v ttl now).map Prod.fst := by
    obtain ⟨kv, hkv, heq⟩ := List.mem_map.mp (by
      simpa only [expView] using hdmem)
    have hfst : kv.1 = hd.1 := congrArg Prod.fst heq
    exact hfst ▸ List.mem_map_of_mem Prod.fst hkv
  refine ⟨?_, hd.1, hd.2, ?_, hmin, ?_, ?_⟩
  · rw [hresult]
    have hcount :=
      length_filter_key (afterInsert c key v ttl now) hd.1 hinsnodup hkeymem
    omega
  · simpa using hdmem
  · intro kv hkv hne
    rw [hresult]
    apply List.mem_filter.mpr
    exact ⟨hkv, by simpa using hne⟩
  · intro kv hkv
    rw [hresult] at hkv
    have hmem := List.mem_filter.mp hkv
    exact ⟨hmem.1, by simpa using hmem.2⟩

/-- Claim C5, witness: the eviction theorem at a capacity-1 cache — inserting
`"b"` (expiring at 50) next to `"a"` (expiring at 100) leaves one item, and
the evicted entry is the earliest-expiring one (`"b"` itself). -/
theorem claim_C5_witness :
    ((cacheFixC5.setWithTTL "b" 7 50 0).items.length : Int) = 1 ∧
    (cacheFixC5.setWithTTL "b" 7 50 0).items = [("a", ⟨5, 100⟩)] :=
  ⟨(claim_C5 cacheFixC5 "b" 7 50 0 1 rfl (by decide) (by decide) (by decide)
      (by decide)).1,
   by decide⟩

/-! ## Claim C7 — retry with exponential backoff -/

theorem range_map_pow (d k : Nat) :
    (List.range (k + 1)).map (fun j => d * 2 ^ j) =
      d :: (List.range k).map (fun j => d * 2 * 2 ^ j) := by
  rw [List.range_succ_eq_map]
  simp only [List.map_cons, pow_zero, mul_one, List.map_map]
  congr 1
  apply List.map_congr_left
  intro j _
  simp only [Function.comp_apply, pow_succ]
  ring

theorem withRetryGo_spec (f : Nat → AttemptOutcome) :
    ∀ (r a d : Nat) (w : List Nat) (le : String), 1 ≤ a →
    withRetryGo f r a d w (some le) =
      match (List.range' a r).find? (fun i => (f i).isOk) with
      | some i =>
        (.ok (f i).respOf, w ++ (List.range (i - a + 1)).map (fun j => d * 2 ^ j))
      | none =>
        (.error ("max retries reached: " ++
            (if r = 0 then le else (f (a + r - 1)).errString)),
         w ++ (List.range r).map (fun j => d * 2 ^ j)) := by
  intro r
  induction r with
  | zero =>
    intro a d w le _
    simp [withRetryGo, List.range']
  | succ r ih =>
    intro a d w le ha
    have ha' : a > 0 := ha
    rw [List.range'_succ]
    rcases hf : f a with e | resp
    · have hok : (f a).isOk = false := by rw [hf]; rfl
      have hlhs : withRetryGo f (r + 1) a d w (some le) =
          withRetryGo f r (a + 1) (d * 2) (w ++ [d]) (some e) := by
        simp only [withRetryGo, if_pos ha', hf]
      rw [hlhs, ih (a + 1) (d * 2) (w ++ [d]) e (by omega),
        List.find?_cons, hok]
      cases hfind : (List.range' (a + 1) r).find? (fun i => (f i).isOk) with
      | some i =>
        have hmem := List.mem_of_find?_eq_some hfind
        have hile : a + 1 ≤ i := (List.mem_range'_1.mp hmem).1
        simp only []
        have hidx : i - a + 1 = (i - (a + 1) + 1) + 1 := by omega
        rw [hidx, range_map_pow]
        simp [range_map_pow]
      | none =>
        simp only [Prod.mk.injEq]
        constructor
        · congr 1
          by_cases hr : r = 0
          · subst hr
            simp [hf, AttemptOutcome.errString]
          · rw [if_neg hr, if_neg (by omega)]
            rw [show a + 1 + r - 1 = a + (r + 1) - 1 from by omega]
        · simp [range_map_pow]
    · by_cases h200 : resp.statusCode = 200
      · have hok : (f a).isOk = true := by
          rw [hf]
          simp [AttemptOutcome.isOk, h200]
        have hlhs : withRetryGo f (r + 1) a d w (some le) =
            (.ok resp, w ++ [d]) := by
          simp only [withRetryGo, if_pos ha', hf]
          rw [if_pos (by simpa using h200)]
        rw [hlhs, List.find?_cons, hok]
        simp only [Prod.mk.injEq]
        refine ⟨by rw [hf]; rfl, ?_⟩
        rw [show a - a + 1 = 1 from by omega,
          show List.range 1 = [0] from rfl]
        simp
      · have hok : (f a).isOk = false := by
          rw [hf]
          simp [AttemptOutcome.isOk, h200]
        have hlhs : withRetryGo f (r + 1) a d w (some le) =
            withRetryGo f r (a + 1) (d * 2) (w ++ [d])
              (some ("HTTP status " ++ toString resp.statusCode)) := by
          simp only [withRetryGo, if_pos ha', hf]
          rw [if_neg (by simpa using h200)]
        rw [hlhs, ih (a + 1) (d * 2) (w ++ [d]) _ (by omega),
          List.find?_cons, hok]
        cases hfind : (List.range' (a + 1) r).find? (fun i => (f i).isOk) with
        | some i =>
          have hmem := List.mem_of_find?_eq_some hfind
          have hile : a + 1 ≤ i := (List.mem_range'_1.mp hmem).1
          simp only []
          have hidx : i - a + 1 = (i - (a + 1) + 1) + 1 := by omega
          rw [hidx, range_map_pow]
          simp [range_map_pow]
        | none =>
          simp only [Prod.mk.injEq]
          constructor
          · congr 1
            by_cases hr : r = 0
            · subst hr
              simp [hf, AttemptOutcome.errString]
            · rw [if_neg hr, if_neg (by omega)]
              rw [show a + 1 + r - 1 = a + (r + 1) - 1 from by omega]
          · simp [range_map_pow]

/-- Claim C7, counterexample: with every attempt failing as transport error
`boom`, `withRetry` with `maxRetries = 3` and 500ms initial delay waits 500
then 1000 ms and returns the error `max retries reached: boom` — a message
that contains no digit at all, so it does not carry the attempt count the
claim asserts is wrapped with the last error. -/
theorem claim_C7_counterexample :
    (withRetry attemptsAllFail 3 500).1 = .error "max retries reached: boom" ∧
    (withRetry attemptsAllFail 3 500).2 = [500, 1000] ∧
    "max retries reached: boom".toList.all (fun c => !c.isDigit) = true := by
  refine ⟨rfl, rfl, by decide⟩

/-- Claim C7, amended: `withRetry` succeeds exactly when some attempt among
the first `maxAttempts` succeeds (no transport error and HTTP 200), returning
the first such attempt's response; the backoff delay waited before each retry
doubles from the initial delay (`d0·2^0, d0·2^1, …`); and when every attempt
fails the returned error wraps the last observed error under the fixed prefix
`max retries reached: ` — without the numeric attempt count. -/
theorem claim_C7_amended (f : Nat → AttemptOutcome) (n d0 : Nat) (hn : 0 < n) :
    withRetry f n d0 =
      match firstSuccessIdx f n with
      | some i =>
        (.ok (f i).respOf, (List.range i).map (fun j => d0 * 2 ^ j))
      | none =>
        (.error ("max retries reached: " ++ (f (n - 1)).errString),
         (List.range (n - 1)).map (fun j => d0 * 2 ^ j)) := by
  obtain ⟨r, rfl⟩ : ∃ r, n = r + 1 := ⟨n - 1, by omega⟩
  have hrange : List.range (r + 1) = 0 :: List.range' 1 r := by
    rw [List.range_eq_range', List.range'_succ]
  simp only [firstSuccessIdx, withRetry]
  rw [hrange, List.find?_cons]
  rcases hf0 : f 0 with e | resp
  · have hok : (AttemptOutcome.failure e).isOk = false := rfl
    rw [hok]
    simp only []
    have hstep : withRetryGo f (r + 1) 0 d0 [] none =
        withRetryGo f r 1 d0 [] (some e) := by
      simp only [withRetryGo, hf0]
      norm_num
    rw [hstep, withRetryGo_spec f r 1 d0 [] e le_rfl]
    cases hfind : (List.range' 1 r).find? (fun i => (f i).isOk) with
    | some i =>
      have hile : 1 ≤ i :=
        (List.mem_range'_1.mp (List.mem_of_find?_eq_some hfind)).1
      simp only []
      rw [show i - 1 + 1 = i from by omega]
      simp
    | none =>
      simp only [Prod.mk.injEq]
      constructor
      · congr 1
        by_cases hr : r = 0
        · subst hr
          simp [hf0, AttemptOutcome.errString]
        · rw [if_neg hr]
          rw [show 1 + r - 1 = r + 1 - 1 from by omega]
      · simp
  · by_cases h200 : resp.statusCode = 200
    · have hok : (AttemptOutcome.response resp).isOk = true := by
        simp [AttemptOutcome.isOk, h200]
      rw [hok]
      simp only []
      have hstop : withRetryGo f (r + 1) 0 d0 [] none = (.ok resp, []) := by
        simp only [withRetryGo, hf0]
        rw [if_pos (by simpa using h200)]
        norm_num
      rw [hstop, hf0]
      simp [AttemptOutcome.respOf]
    · have hok : (AttemptOutcome.response resp).isOk = false := by
        simp [AttemptOutcome.isOk, h200]
      rw [hok]
      simp only []
      have hstep : withRetryGo f (r + 1) 0 d0 [] none =
          withRetryGo f r 1 d0 []
            (some ("HTTP status " ++ toString resp.statusCode)) := by
        simp only [withRetryGo, hf0]
        rw [if_neg (by simpa using h200)]
        norm_num
      rw [hstep, withRetryGo_spec f r 1 d0 [] _ le_rfl]
      cases hfind : (List.range' 1 r).find? (fun i => (f i).isOk) with
      | some i =>
        have hile : 1 ≤ i :=
          (List.mem_range'_1.mp (List.mem_of_find?_eq_some hfind)).1
        simp only []
        rw [show i - 1 + 1 = i from by omega]
        simp
      | none =>
        simp only [Prod.mk.injEq]
        constructor
        · congr 1
          by_cases hr : r = 0
          · subst hr
            simp [hf0, AttemptOutcome.errString]
          · rw [if_neg hr]
            rw [show 1 + r - 1 = r + 1 - 1 from by omega]
        · simp

/-- Claim C7, witness: the amended theorem at a request that fails twice and
succeeds on the third of `maxRetries = 3` attempts, with the observed waits
500 then 1000 ms. -/
theorem claim_C7_witness :
    0 < 3 ∧ withRetry attemptsThirdOk 3 500 = (.ok ⟨200⟩, [500, 1000]) :=
  ⟨by omega,
   (claim_C7_amended attemptsThirdOk 3 500 (by omega)).trans (by decide)⟩

/-! ## Claims C1 and C10 — ranking and selection -/

theorem sorted_bestIdx_zero :
    ∀ s : List NominatimResult, List.Sorted moreImportant s → s ≠ [] →
    bestResultIndex s = 0 := by
  intro s hs hne
  match s, hne with
  | a :: t, _ =>
    by_cases hp : minImportance ≤ a.importance
    · simp [bestResultIndex, List.findIdx?_cons, hp]
    · have hall : ∀ x ∈ a :: t,
          (fun r => decide (minImportance ≤ r.importance)) x = false := by
        intro x hx
        rcases List.mem_cons.mp hx with h | h
        · subst h; simpa using hp
        · have hle : x.importance ≤ a.importance :=
            List.rel_of_sorted_cons hs x h
          have hnx : ¬ minImportance ≤ x.importance :=
            fun hc => hp (le_trans hc hle)
          simpa using hnx
      have hnone : (a :: t).findIdx?
          (fun r => decide (minImportance ≤ r.importance)) = none :=
        List.findIdx?_eq_none_iff.mpr hall
      simp [bestResultIndex, hnone]

theorem sorted_head_importance_max (a : NominatimResult)
    (t : List NominatimResult) (hs : List.Sorted moreImportant (a :: t)) :
    ∀ x ∈ a :: t, x.importance ≤ a.importance := by
  intro x hx
  rcases List.mem_cons.mp hx with h | h
  · rw [h]
  · exact List.rel_of_sorted_cons hs x h

theorem selectBest_of_sorted_cons (l : List NominatimResult)
    (a : NominatimResult) (t : List NominatimResult)
    (h : sortResults l = a :: t) : selectBest l = some a := by
  have hsorted : List.Sorted moreImportant (a :: t) := by
    rw [← h]
    exact List.sorted_insertionSort _ _
  simp [selectBest, h, sorted_bestIdx_zero (a :: t) hsorted (by simp)]

/-- Claim C1: on every non-empty result list the rank-and-select step sorts
by descending importance (sorted permutation), selects the first sorted
result meeting the 0.4 threshold when one exists, and otherwise a result of
maximal importance; concretely importances `[0.2, 0.5, 0.8]` select the
`0.8` entry and `[0.1, 0.2]` select the `0.2` entry rather than failing. -/
theorem claim_C1 :
    (∀ l : List NominatimResult, l ≠ [] →
      List.Sorted moreImportant (sortResults l) ∧ (sortResults l).Perm l ∧
      (∀ r, (sortResults l).find?
          (fun x => decide (minImportance ≤ x.importance)) = some r →
        selectBest l = some r) ∧
      ((sortResults l).find?
          (fun x => decide (minImportance ≤ x.importance)) = none →
        ∃ r, selectBest l = some r ∧
          ∀ x ∈ l, x.importance ≤ r.importance)) ∧
    selectBest [mkResult "a" (mkRat 2 10), mkResult "b" (mkRat 5 10),
      mkResult "c" (mkRat 8 10)] = some (mkResult "c" (mkRat 8 10)) ∧
    selectBest [mkResult "d" (mkRat 1 10), mkResult "e" (mkRat 2 10)] =
      some (mkResult "e" (mkRat 2 10)) := by
  refine ⟨?_, by decide, by decide⟩
  intro l hl
  have hsorted := List.sorted_insertionSort moreImportant l
  have hperm := List.perm_insertionSort moreImportant l
  have hne : sortResults l ≠ [] := by
    intro h
    apply hl
    have hlen := hperm.length_eq
    rw [show List.insertionSort moreImportant l = sortResults l from rfl,
      h] at hlen
    exact List.length_eq_zero.mp hlen.symm
  obtain ⟨a, t, hat⟩ : ∃ a t, sortResults l = a :: t := by
    cases hcase : sortResults l with
    | nil => exact absurd hcase hne
    | cons a t => exact ⟨a, t, rfl⟩
  have hsorted' : List.Sorted moreImportant (a :: t) := hat ▸ hsorted
  have hsel : selectBest l = some a := selectBest_of_sorted_cons l a t hat
  refine ⟨hsorted, hperm, ?_, ?_⟩
  · intro r hr
    rw [hat, List.find?_cons] at hr
    by_cases hp : minImportance ≤ a.importance
    · simp only [decide_eq_true hp] at hr
      cases hr
      exact hsel
    · simp only [decide_eq_false hp] at hr
      have hnone : t.find?
          (fun x => decide (minImportance ≤ x.importance)) = none := by
        apply List.find?_eq_none.mpr
        intro x hx
        have hle : x.importance ≤ a.importance :=
          List.rel_of_sorted_cons hsorted' x hx
        simp only [decide_eq_true_eq]
        exact fun hc => hp (le_trans hc hle)
      rw [hnone] at hr
      cases hr
  · intro _
    refine ⟨a, hsel, ?_⟩
    intro x hx
    have hx' : x ∈ a :: t := by
      rw [← hat]
      exact (hperm.mem_iff).mpr hx
    exact sorted_head_importance_max a t hsorted' x hx'

/-- Claim C1, witness: the general part of the claim applied to a singleton
list whose only result meets the threshold. -/
theorem claim_C1_witness :
    selectBest [mkResult "w" (mkRat 9 10)] = some (mkResult "w" (mkRat 9 10)) :=
  (claim_C1.1 [mkResult "w" (mkRat 9 10)] (by decide)).2.2.1
    (mkResult "w" (mkRat 9 10)) (by decide)

/-- Claim C10: on a list already sorted by descending importance the
threshold loop always lands on index 0, so on every non-empty result list
the rule "first result meeting the 0.4 threshold, else the top result" is
equivalent to always selecting a result of maximal importance. -/
theorem claim_C10 :
    (∀ s : List NominatimResult, List.Sorted moreImportant s → s ≠ [] →
      bestResultIndex s = 0) ∧
    (∀ l : List NominatimResult, l ≠ [] →
      ∃ r, selectBest l = some r ∧ r ∈ l ∧
        ∀ x ∈ l, x.importance ≤ r.importance) := by
  refine ⟨sorted_bestIdx_zero, ?_⟩
  intro l hl
  have hsorted := List.sorted_insertionSort moreImportant l
  have hperm := List.perm_insertionSort moreImportant l
  have hne : sortResults l ≠ [] := by
    intro h
    apply hl
    have hlen := hperm.length_eq
    rw [show List.insertionSort moreImportant l = sortResults l from rfl,
      h] at hlen
    exact List.length_eq_zero.mp hlen.symm
  obtain ⟨a, t, hat⟩ : ∃ a t, sortResults l = a :: t := by
    cases hcase : sortResults l with
    | nil => exact absurd hcase hne
    | cons a t => exact ⟨a, t, rfl⟩
  have hsorted' : List.Sorted moreImportant (a :: t) := hat ▸ hsorted
  refine ⟨a, selectBest_of_sorted_cons l a t hat, ?_, ?_⟩
  · have : a ∈ sortResults l := by rw [hat]; exact List.mem_cons_self _ _
    exact (hperm.mem_iff).mp this
  · intro x hx
    have hx' : x ∈ a :: t := by
      rw [← hat]
      exact (hperm.mem_iff).mpr hx
    exact sorted_head_importance_max a t hsorted' x hx'

/-- Claim C10, witness: index 0 is chosen on a concrete descending-sorted
pair, and the selected result of a concrete list is a maximal one. -/
theorem claim_C10_witness :
    bestResultIndex [mkResult "x" (mkRat 9 10), mkResult "y" (mkRat 1 10)] = 0 ∧
    ∃ r, selectBest [mkResult "p" (mkRat 3 10), mkResult "q" (mkRat 6 10)] =
        some r ∧
      r ∈ [mkResult "p" (mkRat 3 10), mkResult "q" (mkRat 6 10)] ∧
      ∀ x ∈ [mkResult "p" (mkRat 3 10), mkResult "q" (mkRat 6 10)],
        x.importance ≤ r.importance :=
  ⟨claim_C10.1 [mkResult "x" (mkRat 9 10), mkResult "y" (mkRat 1 10)]
      (by constructor <;> simp <;> decide) (by decide),
   claim_C10.2 [mkResult "p" (mkRat 3 10), mkResult "q" (mkRat 6 10)]
      (by decide)⟩

/-! ## Claim C9 — address sanitization -/

theorem length_dropWhile_le (p : Char → Bool) (l : List Char) :
    (l.dropWhile p).length ≤ l.length := by
  induction l with
  | nil => simp
  | cons x xs ih =>
    by_cases hx : p x
    · simp only [List.dropWhile_cons, hx, if_true]
      exact le_trans ih (Nat.le_succ _)
    · simp [List.dropWhile_cons, hx]

theorem dropWhile_head_false (p : Char → Bool) (l : List Char) (c : Char)
    (t : List Char) (h : l.dropWhile p = c :: t) : p c = false := by
  have hh := List.head?_dropWhile_not p l
  rw [h] at hh
  simpa using hh

theorem getLast?_mem {α : Type} :
    ∀ (l : List α) (z : α), l.getLast? = some z → z ∈ l := by
  intro l
  induction l with
  | nil => intro z h; simp at h
  | cons x xs ih =>
    intro z h
    cases xs with
    | nil =>
      simp only [List.getLast?_singleton, Option.some.injEq] at h
      simp [h]
    | cons y ys =>
      rw [List.getLast?_cons_cons] at h
      exact List.mem_cons_of_mem x (ih z h)

theorem getLast?_dropWhile (p : Char → Bool) (l : List Char)
    (h : l.dropWhile p ≠ []) :
    (l.dropWhile p).getLast? = l.getLast? := by
  conv_rhs => rw [← List.takeWhile_append_dropWhile p l]
  rw [List.getLast?_append]
  cases hd : (l.dropWhile p).getLast? with
  | none =>
    exact absurd (List.getLast?_eq_none_iff.mp hd) h
  | some z => rfl

theorem regexSpace_unicode (c : Char) (h : isRegexSpace c = true) :
    isUnicodeSpace c = true := by
  simp [isUnicodeSpace, h]

theorem collapseWS_ne_nil (l : List Char) (h : l ≠ []) :
    collapseWS l ≠ [] := by
  cases l with
  | nil => exact absurd rfl h
  | cons c rest =>
    rw [collapseWS]
    split <;> simp

theorem collapseWS_cons_not_ws (c : Char) (rest : List Char)
    (h : isRegexSpace c = false) :
    collapseWS (c :: rest) = c :: collapseWS rest := by
  rw [collapseWS]
  simp [h]

theorem collapseWS_cons_ws (c : Char) (rest : List Char)
    (h : isRegexSpace c = true) :
    collapseWS (c :: rest) = ' ' :: collapseWS (rest.dropWhile isRegexSpace) := by
  rw [collapseWS]
  simp [h]

theorem collapse_head_not_ws :
    ∀ (l : List Char) (d : Char) (t2 : List Char),
    collapseWS (l.dropWhile isRegexSpace) = d :: t2 →
    isRegexSpace d = false := by
  intro l d t2 hm
  cases hmm : l.dropWhile isRegexSpace with
  | nil =>
    rw [hmm] at hm
    simp [collapseWS] at hm
  | cons e m2 =>
    have he : isRegexSpace e = false := dropWhile_head_false _ _ _ _ hmm
    rw [hmm, collapseWS_cons_not_ws e m2 he] at hm
    cases hm
    exact he

theorem collapse_noAdj : ∀ (n : Nat) (l : List Char), l.length ≤ n →
    noAdjacentWS (collapseWS l) = true := by
  intro n
  induction n with
  | zero =>
    intro l hl
    have : l = [] := List.length_eq_zero.mp (by omega)
    subst this
    simp [collapseWS, noAdjacentWS]
  | succ n ih =>
    intro l hl
    cases l with
    | nil => simp [collapseWS, noAdjacentWS]
    | cons c rest =>
      by_cases hc : isRegexSpace c
      · rw [collapseWS_cons_ws c rest hc]
        have hlen : (rest.dropWhile isRegexSpace).length ≤ n := by
          have := length_dropWhile_le isRegexSpace rest
          simp only [List.length_cons] at hl
          omega
        have hIH := ih _ hlen
        cases hm : collapseWS (rest.dropWhile isRegexSpace) with
        | nil => rfl
        | cons d t2 =>
          have hd : isRegexSpace d = false := collapse_head_not_ws rest d t2 hm
          rw [hm] at hIH
          simp [noAdjacentWS, hd, hIH]
      · rw [collapseWS_cons_not_ws c rest (by simpa using hc)]
        have hlen : rest.length ≤ n := by
          simp only [List.length_cons] at hl
          omega
        have hIH := ih rest hlen
        cases hm : collapseWS rest with
        | nil => rfl
        | cons d t2 =>
          rw [hm] at hIH
          simp only [noAdjacentWS, hIH, Bool.and_true]
          simp [show isRegexSpace c = false from by simpa using hc]

theorem collapse_ws_is_space : ∀ (n : Nat) (l : List Char), l.length ≤ n →
    (collapseWS l).all (fun c => !isRegexSpace c || c == ' ') = true := by
  intro n
  induction n with
  | zero =>
    intro l hl
    have : l = [] := List.length_eq_zero.mp (by omega)
    subst this
    simp [collapseWS, noAdjacentWS]
  | succ n ih =>
    intro l hl
    cases l with
    | nil => simp [collapseWS, noAdjacentWS]
    | cons c rest =>
      by_cases hc : isRegexSpace c
      · rw [collapseWS_cons_ws c rest hc]
        have hlen : (rest.dropWhile isRegexSpace).length ≤ n := by
          have := length_dropWhile_le isRegexSpace rest
          simp only [List.length_cons] at hl
          omega
        have hIH := ih _ hlen
        simp [List.all_cons, hIH]
      · rw [collapseWS_cons_not_ws c rest (by simpa using hc)]
        have hlen : rest.length ≤ n := by
          simp only [List.length_cons] at hl
          omega
        have hIH := ih rest hlen
        simp [List.all_cons, hIH, show isRegexSpace c = false from by simpa using hc]

theorem collapse_getLast : ∀ (n : Nat) (l : List Char), l.length ≤ n →
    (∀ z, l.getLast? = some z → isUnicodeSpace z = false) →
    ∀ e, (collapseWS l).getLast? = some e → isUnicodeSpace e = false := by
  intro n
  induction n with
  | zero =>
    intro l hl _ e he
    have : l = [] := List.length_eq_zero.mp (by omega)
    subst this
    rw [show collapseWS [] = [] from by simp [collapseWS]] at he
    simp at he
  | succ n ih =>
    intro l hl hlast e he
    cases l with
    | nil =>
      rw [show collapseWS [] = [] from by simp [collapseWS]] at he
      simp at he
    | cons c rest =>
      cases rest with
      | nil =>
        have hz : isUnicodeSpace c = false := hlast c (by simp)
        have hc : isRegexSpace c = false := by
          cases hrc : isRegexSpace c
          · rfl
          · exact absurd (regexSpace_unicode c hrc) (by simp [hz])
        rw [collapseWS_cons_not_ws c [] hc,
          show collapseWS [] = [] from by simp [collapseWS]] at he
        simp only [List.getLast?_singleton, Option.some.injEq] at he
        rw [← he]
        exact hz
      | cons r rest' =>
        have hlast' : ∀ z, (r :: rest').getLast? = some z →
            isUnicodeSpace z = false := by
          intro z hz
          apply hlast
          rw [List.getLast?_cons_cons]
          exact hz
        by_cases hc : isRegexSpace c
        · rw [collapseWS_cons_ws c (r :: rest') hc] at he
          cases hm : (r :: rest').dropWhile isRegexSpace with
          | nil =>
            have hall : ∀ x ∈ r :: rest', isRegexSpace x = true :=
              List.dropWhile_eq_nil_iff.mp hm
            obtain ⟨z, hz⟩ : ∃ z, (r :: rest').getLast? = some z := by
              cases hgl : (r :: rest').getLast? with
              | none =>
                exact absurd (List.getLast?_eq_none_iff.mp hgl) (by simp)
              | some z => exact ⟨z, rfl⟩
            have hzu : isUnicodeSpace z = true :=
              regexSpace_unicode z (hall z (getLast?_mem _ _ hz))
            exact absurd hzu (by simp [hlast' z hz])
          | cons d m2 =>
            have hm'ne : (r :: rest').dropWhile isRegexSpace ≠ [] := by
              rw [hm]; simp
            cases hcm : collapseWS ((r :: rest').dropWhile isRegexSpace) with
            | nil =>
              exact absurd hcm (collapseWS_ne_nil _ (by rw [hm]; simp))
            | cons d2 t2 =>
              rw [hcm, List.getLast?_cons_cons] at he
              have hlen : ((r :: rest').dropWhile isRegexSpace).length ≤ n := by
                have := length_dropWhile_le isRegexSpace (r :: rest')
                simp only [List.length_cons] at hl this ⊢
                omega
              have htrans : ∀ z,
                  ((r :: rest').dropWhile isRegexSpace).getLast? = some z →
                  isUnicodeSpace z = false := by
                intro z hz
                rw [getLast?_dropWhile _ _ hm'ne] at hz
                exact hlast' z hz
              exact ih _ hlen htrans e (by rw [hcm]; exact he)
        · have hc' : isRegexSpace c = false := by simpa using hc
          rw [collapseWS_cons_not_ws c (r :: rest') hc'] at he
          cases hcm : collapseWS (r :: rest') with
          | nil => exact absurd hcm (collapseWS_ne_nil _ (by simp))
          | cons d2 t2 =>
            rw [hcm, List.getLast?_cons_cons] at he
            have hlen : (r :: rest').length ≤ n := by
              simp only [List.length_cons] at hl ⊢
              omega
            exact ih _ hlen hlast' e (by rw [hcm]; exact he)

theorem trimChars_head_not_ws (l : List Char) (c : Char) (t : List Char)
    (h : trimChars l = c :: t) : isUnicodeSpace c = false := by
  have hh : (trimChars l).head? = some c := by rw [h]; rfl
  unfold trimChars at hh
  rw [List.head?_reverse] at hh
  have hne : (l.dropWhile isUnicodeSpace).reverse.dropWhile isUnicodeSpace
      ≠ [] := by
    intro h0
    rw [h0] at hh
    simp at hh
  rw [getLast?_dropWhile _ _ hne, List.getLast?_reverse] at hh
  cases hdw : l.dropWhile isUnicodeSpace with
  | nil =>
    rw [hdw] at hh
    simp at hh
  | cons d t2 =>
    rw [hdw] at hh
    have hd := dropWhile_head_false isUnicodeSpace l d t2 hdw
    simp only [List.head?_cons, Option.some.injEq] at hh
    rw [← hh]
    exact hd

theorem trimChars_getLast_not_ws (l : List Char) (e : Char)
    (h : (trimChars l).getLast? = some e) : isUnicodeSpace e = false := by
  unfold trimChars at h
  rw [List.getLast?_reverse] at h
  cases hdw : (l.dropWhile isUnicodeSpace).reverse.dropWhile isUnicodeSpace with
  | nil =>
    rw [hdw] at h
    simp at h
  | cons d t2 =>
    rw [hdw] at h
    have hd := dropWhile_head_false isUnicodeSpace _ d t2 hdw
    simp only [List.head?_cons, Option.some.injEq] at h
    rw [← h]
    exact hd

theorem collapse_trim_normalized (m : List Char) :
    wsNormalized (collapseWS (trimChars m)) = true := by
  simp only [wsNormalized, Bool.and_eq_true]
  refine ⟨⟨⟨?_, ?_⟩, ?_⟩, ?_⟩
  · exact collapse_noAdj (trimChars m).length _ le_rfl
  · exact collapse_ws_is_space (trimChars m).length _ le_rfl
  · cases hm : trimChars m with
    | nil =>
      rw [show collapseWS [] = [] from by simp [collapseWS]]
      rfl
    | cons c rest =>
      have hcu : isUnicodeSpace c = false := trimChars_head_not_ws m c rest hm
      have hcr : isRegexSpace c = false := by
        cases hb : isRegexSpace c
        · rfl
        · exact absurd (regexSpace_unicode c hb) (by simp [hcu])
      rw [collapseWS_cons_not_ws c rest hcr]
      simp [headNotWS, hcu]
  · cases hgl : (collapseWS (trimChars m)).getLast? with
    | none => simp [lastNotWS, hgl]
    | some e =>
      have he := collapse_getLast (trimChars m).length (trimChars m) le_rfl
        (fun z hz => trimChars_getLast_not_ws m z hz) e hgl
      simp [lastNotWS, hgl, he]

/-- Claim C9: `sanitizeAddress` on the specification's concrete input yields
the expected without-parens and parenthetical parts; in general its first
component is whitespace-normalized (runs collapsed to single spaces, no
leading/trailing whitespace — the collapse-and-trim behavior), and its second
component is trimmed at both ends. -/
theorem claim_C9 :
    sanitizeAddress "Blue Temple (Wat Rong Suea Ten) in Chiang Rai" =
      ("Blue Temple in Chiang Rai", "Wat Rong Suea Ten") ∧
    (∀ s : String, wsNormalized (sanitizeAddress s).1.toList = true) ∧
    (∀ s : String, (headNotWS (sanitizeAddress s).2.toList &&
      lastNotWS (sanitizeAddress s).2.toList) = true) := by
  refine ⟨by decide, ?_, ?_⟩
  · intro s
    simp only [sanitizeAddress]
    cases hp : findParenMatch (collapseWS (trimChars s.toList)) with
    | none =>
      exact collapse_trim_normalized s.toList
    | some v =>
      obtain ⟨pre, content, post⟩ := v
      exact collapse_trim_normalized (replaceAllParens (collapseWS (trimChars s.toList)))
  · intro s
    simp only [sanitizeAddress]
    cases hp : findParenMatch (collapseWS (trimChars s.toList)) with
    | none => rfl
    | some v =>
      obtain ⟨pre, content, post⟩ := v
      simp only [Bool.and_eq_true]
      constructor
      · cases hm : trimChars content with
        | nil => rfl
        | cons c rest =>
          have := trimChars_head_not_ws content c rest hm
          simp [headNotWS, this]
      · cases hgl : (trimChars content).getLast? with
        | none => simp [lastNotWS, hgl]
        | some e =>
          have := trimChars_getLast_not_ws content e hgl
          simp [lastNotWS, hgl, this]

/-! ## Claim C2 — fallback query sequence -/

theorem dedupQueries_nodup_aux : ∀ (l seen : List String),
    (dedupQueries seen l).Nodup ∧ ∀ x ∈ dedupQueries seen l, x ∉ seen := by
  intro l
  induction l with
  | nil =>
    intro seen
    refine ⟨List.nodup_nil, ?_⟩
    intro x hx
    simp [dedupQueries] at hx
  | cons q rest ih =>
    intro seen
    by_cases hq : seen.contains q
    · simp only [dedupQueries, hq, if_true]
      exact ih seen
    · have hq' : seen.contains q = false := by simpa using hq
      simp only [dedupQueries, hq', Bool.false_eq_true, if_false]
      obtain ⟨ihn, ihs⟩ := ih (q :: seen)
      refine ⟨List.nodup_cons.mpr ⟨?_, ihn⟩, ?_⟩
      · intro hmem
        exact (ihs q hmem) (List.mem_cons_self _ _)
      · intro x hx
        rcases List.mem_cons.mp hx with h | h
        · subst h
          intro hc
          exact hq (List.elem_eq_true_of_mem hc)
        · intro hc
          exact (ihs x h) (List.mem_cons_of_mem _ hc)

theorem dedupQueries_mem : ∀ (l seen : List String) (x : String),
    x ∈ l → x ∉ seen → x ∈ dedupQueries seen l := by
  intro l
  induction l with
  | nil => intro seen x hx; simp at hx
  | cons q rest ih =>
    intro seen x hx hns
    by_cases hq : seen.contains q
    · simp only [dedupQueries, hq, if_true]
      rcases List.mem_cons.mp hx with h | h
      · subst h
        exact absurd (List.mem_of_elem_eq_true (by simpa using hq)) hns
      · exact ih seen x h hns
    · have hq' : seen.contains q = false := by simpa using hq
      simp only [dedupQueries, hq', Bool.false_eq_true, if_false]
      by_cases hxq : x = q
      · subst hxq
        exact List.mem_cons_self _ _
      · rcases List.mem_cons.mp hx with h | h
        · exact absurd h hxq
        · refine List.mem_cons_of_mem _ (ih (q :: seen) x h ?_)
          intro hc
          rcases List.mem_cons.mp hc with h2 | h2
          · exact hxq h2
          · exact hns h2

theorem dedupQueries_one (c : String) : dedupQueries [] [c] = [c] := by
  simp [dedupQueries]

theorem dedupQueries_two (c d : String) (h : c ≠ d) :
    dedupQueries [] [c, d] = [c, d] := by
  simp [dedupQueries, Ne.symm h]

theorem dedupQueries_three (c d e : String) (hcd : c ≠ d) (hce : c ≠ e)
    (hde : d ≠ e) : dedupQueries [] [c, d, e] = [c, d, e] := by
  simp [dedupQueries, Ne.symm hcd, Ne.symm hce, Ne.symm hde]

theorem tryQueries_some_spec (f : String → Except Unit (List NominatimResult)) :
    ∀ (qs : List String) (q : String) (l : List NominatimResult),
    tryQueries f qs = some (q, l) → q ∈ qs ∧ f q = .ok l ∧ l ≠ [] := by
  intro qs
  induction qs with
  | nil => intro q l h; simp [tryQueries] at h
  | cons q0 rest ih =>
    intro q l h
    rw [tryQueries] at h
    cases hf : f q0 with
    | error e =>
      rw [hf] at h
      obtain ⟨hm, hok, hne⟩ := ih q l h
      exact ⟨List.mem_cons_of_mem _ hm, hok, hne⟩
    | ok results =>
      rw [hf] at h
      have h' : (if results.length > 0 then some (q0, results)
          else tryQueries f rest) = some (q, l) := h
      by_cases hlen : results.length > 0
      · rw [if_pos hlen] at h'
        simp only [Option.some.injEq, Prod.mk.injEq] at h'
        obtain ⟨h1, h2⟩ := h'
        subst h1
        subst h2
        refine ⟨List.mem_cons_self _ _, hf, ?_⟩
        intro hnil
        rw [hnil] at hlen
        simp at hlen
      · rw [if_neg hlen] at h'
        obtain ⟨hm, hok, hne⟩ := ih q l h'
        exact ⟨List.mem_cons_of_mem _ hm, hok, hne⟩

/-- Claim C2, counterexample: the claim admits the without-parens candidate
only when parentheses are present, but the input `Foo  Bar` (double space,
no parentheses) still produces a two-element query sequence — whitespace
collapsing alone makes the sanitized text differ from the raw input — where
the claim predicts the single candidate `ensureRegion` of the original. -/
theorem claim_C2_counterexample :
    ("Foo  Bar".toList.contains '(') = false ∧
    buildQuerySequence "Foo  Bar" "Chiang Rai Thailand" =
      ["Foo Bar Chiang Rai Thailand", "Foo  Bar Chiang Rai Thailand"] ∧
    buildQuerySequence "Foo  Bar" "Chiang Rai Thailand" ≠
      [ensureRegion "Foo  Bar" "Chiang Rai Thailand"] := by
  refine ⟨by decide, by decide, by decide⟩

/-- Claim C2, amended: the candidate list is deduplicated preserving order
(first conjunct: no duplicates) and always contains the `ensureRegion`-ed
original text; the sanitized without-parens candidate comes first whenever it
is non-empty and differs from the raw input — which holds when parentheses
are present, but also when whitespace normalization alone changed the text;
the parenthetical-content candidate is included whenever it is non-empty, and
the assembled sequence is exactly, in order, (1) the without-parens candidate
(under its guard), (2) the parenthetical-content candidate (when non-empty),
(3) the original text last — one conjunct per guard case, with distinctness
hypotheses exactly where deduplication would otherwise merge candidates;
`ensureRegion` appends the region to comma-free queries of fewer than three
words not already containing it; and the query loop returns the first
candidate whose lookup yields a non-empty result set, a failed or empty
lookup advancing to the next candidate rather than aborting. -/
theorem claim_C2_amended :
    (∀ a r : String, (buildQuerySequence a r).Nodup) ∧
    (∀ a r : String, ensureRegion a r ∈ buildQuerySequence a r) ∧
    (∀ a r : String, (sanitizeAddress a).1 ≠ "" → (sanitizeAddress a).1 ≠ a →
      (buildQuerySequence a r).head? =
        some (ensureRegion (sanitizeAddress a).1 r)) ∧
    (∀ a r : String, (sanitizeAddress a).2 ≠ "" →
      ensureRegion (sanitizeAddress a).2 r ∈ buildQuerySequence a r) ∧
    (∀ a r : String, (sanitizeAddress a).1 ≠ "" → (sanitizeAddress a).1 ≠ a →
      (sanitizeAddress a).2 ≠ "" →
      ensureRegion (sanitizeAddress a).1 r ≠
        ensureRegion (sanitizeAddress a).2 r →
      ensureRegion (sanitizeAddress a).1 r ≠ ensureRegion a r →
      ensureRegion (sanitizeAddress a).2 r ≠ ensureRegion a r →
      buildQuerySequence a r =
        [ensureRegion (sanitizeAddress a).1 r,
          ensureRegion (sanitizeAddress a).2 r, ensureRegion a r]) ∧
    (∀ a r : String, (sanitizeAddress a).1 ≠ "" → (sanitizeAddress a).1 ≠ a →
      (sanitizeAddress a).2 = "" →
      ensureRegion (sanitizeAddress a).1 r ≠ ensureRegion a r →
      buildQuerySequence a r =
        [ensureRegion (sanitizeAddress a).1 r, ensureRegion a r]) ∧
    (∀ a r : String,
      ((sanitizeAddress a).1 = "" ∨ (sanitizeAddress a).1 = a) →
      (sanitizeAddress a).2 ≠ "" →
      ensureRegion (sanitizeAddress a).2 r ≠ ensureRegion a r →
      buildQuerySequence a r =
        [ensureRegion (sanitizeAddress a).2 r, ensureRegion a r]) ∧
    (∀ a r : String,
      ((sanitizeAddress a).1 = "" ∨ (sanitizeAddress a).1 = a) →
      (sanitizeAddress a).2 = "" →
      buildQuerySequence a r = [ensureRegion a r]) ∧
    (∀ q r : String, r ≠ "" → containsSub q.toList r.toList = false →
      containsSub q.toList [','] = false → (fields q.toList).length < 3 →
      ensureRegion q r = q ++ " " ++ r) ∧
    (∀ (f : String → Except Unit (List NominatimResult)) (q : String)
      (l : List NominatimResult) (qs : List String),
      f q = .ok l → l ≠ [] → tryQueries f (q :: qs) = some (q, l)) ∧
    (∀ (f : String → Except Unit (List NominatimResult)) (q : String)
      (qs : List String), (f q = .error () ∨ f q = .ok []) →
      tryQueries f (q :: qs) = tryQueries f qs) ∧
    (∀ (f : String → Except Unit (List NominatimResult)) (qs : List String)
      (q : String) (l : List NominatimResult),
      tryQueries f qs = some (q, l) → q ∈ qs ∧ f q = .ok l ∧ l ≠ []) := by
  refine ⟨?_, ?_, ?_, ?_, ?_, ?_, ?_, ?_, ?_, ?_, ?_, ?_⟩
  · intro a r
    exact (dedupQueries_nodup_aux _ []).1
  · intro a r
    apply dedupQueries_mem
    · simp
    · simp
  · intro a r h1 h2
    simp only [buildQuerySequence]
    rw [if_pos ⟨h1, h2⟩]
    simp only [List.cons_append, List.singleton_append, List.nil_append]
    rw [show dedupQueries []
        (ensureRegion (sanitizeAddress a).1 r ::
          ((if (sanitizeAddress a).2 ≠ "" then
              [ensureRegion (sanitizeAddress a).2 r] else []) ++
            [ensureRegion a r])) =
        ensureRegion (sanitizeAddress a).1 r ::
          dedupQueries [ensureRegion (sanitizeAddress a).1 r]
            ((if (sanitizeAddress a).2 ≠ "" then
              [ensureRegion (sanitizeAddress a).2 r] else []) ++
            [ensureRegion a r]) from by
      simp [dedupQueries]]
    rfl
  · intro a r hpc
    simp only [buildQuerySequence]
    apply dedupQueries_mem
    · simp [hpc]
    · simp
  · intro a r h1 h2 hpc h12 h13 h23
    simp only [buildQuerySequence]
    rw [if_pos ⟨h1, h2⟩, if_pos hpc]
    simp only [List.singleton_append, List.cons_append, List.nil_append]
    exact dedupQueries_three _ _ _ h12 h13 h23
  · intro a r h1 h2 hpc h13
    simp only [buildQuerySequence]
    rw [if_pos ⟨h1, h2⟩, if_neg (by simp [hpc])]
    simp only [List.singleton_append, List.cons_append, List.nil_append,
      List.append_nil]
    exact dedupQueries_two _ _ h13
  · intro a r hg hpc h23
    simp only [buildQuerySequence]
    rw [if_neg (by rcases hg with h | h <;> simp [h]), if_pos hpc]
    simp only [List.singleton_append, List.cons_append, List.nil_append]
    exact dedupQueries_two _ _ h23
  · intro a r hg hpc
    simp only [buildQuerySequence]
    rw [if_neg (by rcases hg with h | h <;> simp [h]), if_neg (by simp [hpc])]
    simp only [List.nil_append]
    exact dedupQueries_one _
  · intro q r h0 h1 h2 h3
    simp only [String.toList] at h1 h2 h3
    have hc1 : (decide (r = "") || containsSub q.data r.data) = false := by
      simp [h0, h1]
    simp only [ensureRegion, String.toList, hc1, Bool.false_eq_true,
      if_false, h2, if_pos h3]
  · intro f q l qs hok hne
    simp only [tryQueries, hok]
    rw [if_pos (List.length_pos.mpr hne)]
  · intro f q qs hfail
    rcases hfail with h | h
    · simp [tryQueries, h]
    · simp [tryQueries, h]
  · exact tryQueries_some_spec

/-- Claim C2, witness: the amended theorem at a parenthesized address (the
without-parens candidate leads the deduplicated sequence, which is exactly
without-parens, then the parenthetical content, then the original), at a
short query (region appended), and at a lookup oracle failing on the first
candidate and succeeding on the second. -/
theorem claim_C2_witness :
    (buildQuerySequence "Blue Temple (Wat Rong Suea Ten)"
      "Chiang Rai Thailand").Nodup ∧
    (buildQuerySequence "Blue Temple (Wat Rong Suea Ten)"
      "Chiang Rai Thailand").head? =
      some (ensureRegion "Blue Temple" "Chiang Rai Thailand") ∧
    buildQuerySequence "Blue Temple (Wat Rong Suea Ten)"
      "Chiang Rai Thailand" =
      [ensureRegion "Blue Temple" "Chiang Rai Thailand",
        ensureRegion "Wat Rong Suea Ten" "Chiang Rai Thailand",
        ensureRegion "Blue Temple (Wat Rong Suea Ten)" "Chiang Rai Thailand"] ∧
    ensureRegion "Foo" "Chiang Rai Thailand" =
      "Foo" ++ " " ++ "Chiang Rai Thailand" ∧
    tryQueries lookupFix ["q1", "q2"] =
      some ("q2", [mkResult "hit" (mkRat 1 2)]) :=
  ⟨claim_C2_amended.1 _ _,
   by
     have h := claim_C2_amended.2.2.1 "Blue Temple (Wat Rong Suea Ten)"
       "Chiang Rai Thailand" (by decide) (by decide)
     rw [show (sanitizeAddress "Blue Temple (Wat Rong Suea Ten)").1 =
       "Blue Temple" from by decide] at h
     exact h,
   by
     have h := claim_C2_amended.2.2.2.2.1 "Blue Temple (Wat Rong Suea Ten)"
       "Chiang Rai Thailand" (by decide) (by decide) (by decide) (by decide)
       (by decide) (by decide)
     rw [show (sanitizeAddress "Blue Temple (Wat Rong Suea Ten)").1 =
       "Blue Temple" from by decide,
       show (sanitizeAddress "Blue Temple (Wat Rong Suea Ten)").2 =
       "Wat Rong Suea Ten" from by decide] at h
     exact h,
   claim_C2_amended.2.2.2.2.2.2.2.2.1 "Foo" "Chiang Rai Thailand" (by decide)
     (by decide) (by decide) (by decide),
   by
     have h1 := claim_C2_amended.2.2.2.2.2.2.2.2.2.2.1 lookupFix "q1" ["q2"]
       (Or.inl rfl)
     have h2 := claim_C2_amended.2.2.2.2.2.2.2.2.2.1 lookupFix "q2"
       [mkResult "hit" (mkRat 1 2)] [] rfl (by simp)
     exact h1.trans h2⟩

/-! ## Claim C4 — polyline codec round trip -/

/-- Bitwise OR with a shifted value is addition when the low bits are free:
the accumulator pattern of `DecodePolyline`'s inner loop. -/
theorem lor_shift_add (a x k : Nat) (ha : a < 2 ^ k) :
    a ||| (x <<< k) = a + x * 2 ^ k := by
  apply Nat.eq_of_testBit_eq
  intro i
  rw [Nat.testBit_lor, Nat.testBit_shiftLeft]
  rcases lt_or_ge i k with hik | hik
  · have h1 : (decide (i ≥ k) && x.testBit (i - k)) = false := by
      simp [show ¬ i ≥ k from by omega]
    rw [h1, Bool.or_false]
    rw [show a + x * 2 ^ k = 2 ^ k * x + a from by ring]
    rw [Nat.testBit_mul_pow_two_add x ha i, if_pos hik]
  · have h1 : decide (i ≥ k) = true := by simp [hik]
    rw [h1, Bool.true_and]
    have h2 : a.testBit i = false := by
      apply Nat.testBit_lt_two_pow
      calc a < 2 ^ k := ha
        _ ≤ 2 ^ i := Nat.pow_le_pow_right (by norm_num) hik
    rw [h2, Bool.false_or]
    rw [show a + x * 2 ^ k = 2 ^ k * x + a from by ring]
    rw [Nat.testBit_mul_pow_two_add x ha i, if_neg (by omega)]

/-- The continuation-bit OR of `encodeSigned`: `0x20 | m` is `32 + m` for a
5-bit group `m`. -/
theorem lor_32 (m : Nat) (hm : m < 32) : 32 ||| m = 32 + m := by
  rw [Nat.lor_comm, show (32 : Nat) = 1 <<< 5 from rfl,
    lor_shift_add m 1 5 (by omega)]
  omega

/-- `encodeSigned` always emits at least one byte. -/
theorem encodeChunks_ne_nil (s : Nat) : encodeChunks s ≠ [] := by
  rw [encodeChunks]
  split <;> simp

theorem encodeSigned_ne_nil (v : Int) : encodeSigned v ≠ [] :=
  encodeChunks_ne_nil _

/-- Every byte emitted by the 5-bit chunker is printable ASCII (≤ 126). -/
theorem encodeChunks_le (s : Nat) : ∀ x ∈ encodeChunks s, x ≤ 126 := by
  induction s using Nat.strong_induction_on with
  | _ s ih =>
    rw [encodeChunks]
    split
    · rename_i h
      intro x hx
      simp only [List.mem_singleton] at hx
      omega
    · rename_i h
      intro x hx
      rw [lor_32 (s % 32) (by omega)] at hx
      simp only [List.mem_cons] at hx
      rcases hx with hx | hx
      · omega
      · exact ih (s / 32) (Nat.div_lt_self (by omega) (by omega)) x hx

/-- Every byte of the encoded stream is printable ASCII (≤ 126). -/
theorem encodeLoop_le (l : List (Int × Int)) :
    ∀ (a b : Int), ∀ x ∈ encodeLoop l a b, x ≤ 126 := by
  induction l with
  | nil =>
    intro a b x hx
    simp [encodeLoop] at hx
  | cons p rest ih =>
    intro a b x hx
    obtain ⟨lat, lng⟩ := p
    simp only [encodeLoop, List.mem_append] at hx
    rcases hx with (hx | hx) | hx
    · exact encodeChunks_le _ x hx
    · exact encodeChunks_le _ x hx
    · exact ih lat lng x hx

/-- `Char.ofNat` then `Char.toNat` is the identity on ASCII codes: the string
produced by `EncodePolyline` decodes to the same byte stream. -/
theorem toNat_ofNat_small (n : Nat) (h : n ≤ 126) : (Char.ofNat n).toNat = n := by
  have hv : n.isValidChar := Or.inl (by omega)
  rw [Char.ofNat, dif_pos hv]
  rfl

/-- The inner decode loop inverts the 5-bit chunker: reading the chunks of
`s` starting at `shift` with partial accumulator `acc < 2 ^ shift` yields
`acc + s * 2 ^ shift` and leaves exactly the trailing bytes. -/
theorem decodeSignedGo_encodeChunks (s : Nat) :
    ∀ (tail : List Nat) (shift acc : Nat), acc < 2 ^ shift →
      decodeSignedGo (encodeChunks s ++ tail) shift acc =
        (acc + s * 2 ^ shift, tail) := by
  induction s using Nat.strong_induction_on with
  | _ s ih =>
    intro tail shift acc hacc
    by_cases h : s < 32
    · rw [encodeChunks, dif_pos h, List.cons_append, List.nil_append]
      simp only [decodeSignedGo]
      have hb : ((s + 63 : Nat) : Int) - 63 = (s : Int) := by push_cast; ring
      rw [hb]
      rw [if_pos (by exact_mod_cast h)]
      have hm : ((s : Int).emod 32).toNat = s := by
        rw [show (s : Int).emod 32 = (s : Int) % 32 from rfl]
        omega
      rw [hm, lor_shift_add acc s shift hacc]
    · rw [encodeChunks, dif_neg h, List.cons_append]
      simp only [decodeSignedGo]
      rw [lor_32 (s % 32) (by omega)]
      have hb : ((32 + s % 32 + 63 : Nat) : Int) - 63 = ((s % 32 : Nat) : Int) + 32 := by
        push_cast
        ring
      rw [hb]
      rw [if_neg (by omega)]
      have hm : ((((s % 32 : Nat) : Int) + 32).emod 32).toNat = s % 32 := by
        rw [show (((s % 32 : Nat) : Int) + 32).emod 32 =
          (((s % 32 : Nat) : Int) + 32) % 32 from rfl]
        omega
      rw [hm, lor_shift_add acc (s % 32) shift hacc]
      have hacc' : acc + s % 32 * 2 ^ shift < 2 ^ (shift + 5) := by
        have h31 : s % 32 ≤ 31 := by omega
        calc acc + s % 32 * 2 ^ shift < 2 ^ shift + s % 32 * 2 ^ shift := by omega
          _ ≤ 2 ^ shift + 31 * 2 ^ shift := by
              exact Nat.add_le_add_left (Nat.mul_le_mul_right _ h31) _
          _ = 2 ^ (shift + 5) := by
              rw [pow_add]
              ring
      rw [ih (s / 32) (Nat.div_lt_self (by omega) (by omega)) tail (shift + 5)
        (acc + s % 32 * 2 ^ shift) hacc']
      have harith : acc + s % 32 * 2 ^ shift + s / 32 * 2 ^ (shift + 5) =
          acc + s * 2 ^ shift := by
        have h1 : s / 32 * 2 ^ (shift + 5) = 32 * (s / 32) * 2 ^ shift := by
          rw [pow_add]
          ring
        rw [h1, Nat.add_assoc, ← Nat.add_mul,
          show s % 32 + 32 * (s / 32) = s from by omega]
      rw [harith]

/-- The inner decode loop inverts `encodeSigned` up to the zig-zag map. -/
theorem decodeSignedGo_encodeSigned (v : Int) (tail : List Nat) :
    decodeSignedGo (encodeSigned v ++ tail) 0 0 = ((zigzag v).toNat, tail) := by
  have h := decodeSignedGo_encodeChunks (zigzag v).toNat tail 0 0 (by norm_num)
  simpa [encodeSigned] using h

/-- The zig-zag map of `encodeSigned` is inverted by the
`(result >> 1) ^ (-(result & 1))` step of `DecodePolyline`. -/
theorem unzigzag_zigzag (v : Int) : unzigzag (zigzag v).toNat = v := by
  simp only [zigzag, unzigzag]
  rcases lt_or_ge v 0 with hv | hv
  · rw [if_pos hv, if_pos (by omega)]
    omega
  · rw [if_neg (by omega), if_neg (by omega)]
    omega

/-- The outer decode loop inverts the outer encode loop: delta-encoding from
any starting point is undone by delta-accumulation from the same point. -/
theorem decodeLoop_encodeLoop (pts : List (Int × Int)) :
    ∀ (pl pg : Int), decodeLoop (encodeLoop pts pl pg) pl pg = pts := by
  induction pts with
  | nil =>
    intro pl pg
    simp [encodeLoop, decodeLoop]
  | cons p rest ih =>
    intro pl pg
    obtain ⟨lat, lng⟩ := p
    obtain ⟨c, cs, hc⟩ := List.exists_cons_of_ne_nil (encodeSigned_ne_nil (lat - pl))
    simp only [encodeLoop]
    rw [List.append_assoc, hc, List.cons_append]
    simp only [decodeLoop]
    rw [← List.cons_append, ← hc,
      decodeSignedGo_encodeSigned (lat - pl)
        (encodeSigned (lng - pg) ++ encodeLoop rest lat lng)]
    simp only [unzigzag_zigzag]
    rw [decodeSignedGo_encodeSigned (lng - pg) (encodeLoop rest lat lng)]
    simp only [unzigzag_zigzag]
    rw [show pl + (lat - pl) = lat from by ring,
      show pg + (lng - pg) = lng from by ring, ih lat lng]

/-- `goRound` (Go's `math.Round` then `int` conversion) is the identity on
integers. -/
theorem goRound_intCast (k : Int) : goRound ((k : ℚ)) = k := by
  have hhalf : (mkRat 1 2 : ℚ) = 1 / 2 := by norm_num [Rat.mkRat_eq_div]
  have hfl : ∀ z : Int, ⌊(z : ℚ) + 1 / 2⌋ = z := by
    intro z
    rw [Int.floor_int_add]
    norm_num
  simp only [goRound, hhalf]
  rcases lt_or_ge k 0 with hk | hk
  · rw [if_pos (by exact_mod_cast hk)]
    rw [show -((k : ℚ)) = (((-k : Int)) : ℚ) from by push_cast; ring]
    rw [hfl, neg_neg]
  · rw [if_neg (by exact_mod_cast not_lt.mpr hk)]
    exact hfl k

/-- Scaling an exact multiple of 1e-5 by 1e5 recovers the integer numerator. -/
theorem mkRat_mul_cancel (a : Int) :
    (mkRat a 100000 : ℚ) * mkRat 100000 1 = (a : ℚ) := by
  norm_num [Rat.mkRat_eq_div]

/-- Decoding the rendered byte stream of an integer point list recovers the
points, scaled back by 1e-5. -/
theorem decode_encode_string (l : List (Int × Int)) :
    DecodePolyline (String.mk ((encodeLoop l 0 0).map Char.ofNat)) =
      l.map (fun p => (mkRat p.1 100000, mkRat p.2 100000)) := by
  simp only [DecodePolyline]
  rw [show (String.mk ((encodeLoop l 0 0).map Char.ofNat)).toList =
    (encodeLoop l 0 0).map Char.ofNat from rfl]
  rw [List.map_map]
  have h2 : (encodeLoop l 0 0).map (Char.toNat ∘ Char.ofNat) = encodeLoop l 0 0 := by
    conv_rhs => rw [← List.map_id (encodeLoop l 0 0)]
    exact List.map_congr_left
      (fun x hx => toNat_ofNat_small x (encodeLoop_le l 0 0 x hx))
  rw [h2, decodeLoop_encodeLoop]

/-- Round trip: points whose coordinates are exact multiples of 1e-5 are
reproduced exactly by decode-after-encode. -/
theorem polyline_roundtrip (points : List (ℚ × ℚ))
    (hpts : ∀ p ∈ points, ∃ a b : Int,
      p.1 = mkRat a 100000 ∧ p.2 = mkRat b 100000) :
    DecodePolyline (EncodePolyline points) = points := by
  simp only [EncodePolyline]
  rw [decode_encode_string, List.map_map]
  have hid : ∀ p ∈ points,
      ((fun q : Int × Int => (mkRat q.1 100000, mkRat q.2 100000)) ∘
        (fun p : ℚ × ℚ =>
          (goRound (p.1 * mkRat 100000 1), goRound (p.2 * mkRat 100000 1)))) p =
        id p := by
    intro p hp
    obtain ⟨a, b, ha, hb⟩ := hpts p hp
    simp only [Function.comp_apply, id_eq]
    rw [ha, hb, mkRat_mul_cancel a, mkRat_mul_cancel b, goRound_intCast,
      goRound_intCast, ← ha, ← hb]
  rw [List.map_congr_left hid, List.map_id]

/-- Latitude 38.5 scaled: `encodeSigned 3850000` emits the bytes of
`"_p~iF"`. -/
theorem encodeSigned_3850000 :
    encodeSigned 3850000 = [95, 112, 126, 105, 70] := by
  show encodeChunks 7700000 = _
  simp [encodeChunks]

/-- Longitude -120.2 scaled: `encodeSigned (-12020000)` emits the bytes of
`"~ps|U"`. -/
theorem encodeSigned_neg12020000 :
    encodeSigned (-12020000) = [126, 112, 115, 124, 85] := by
  show encodeChunks 24039999 = _
  simp [encodeChunks]

/-- The concrete encode vector of the spec. -/
theorem encodePolyline_vector :
    EncodePolyline [(mkRat 385 10, mkRat (-1202) 10)] = "_p~iF~ps|U" := by
  have h1 : goRound (mkRat 385 10 * mkRat 100000 1) = 3850000 := by
    rw [show (mkRat 385 10 : ℚ) * mkRat 100000 1 = ((3850000 : Int) : ℚ) from by
      norm_num [Rat.mkRat_eq_div]]
    rw [goRound_intCast]
  have h2 : goRound (mkRat (-1202) 10 * mkRat 100000 1) = -12020000 := by
    rw [show (mkRat (-1202) 10 : ℚ) * mkRat 100000 1 = ((-12020000 : Int) : ℚ) from by
      norm_num [Rat.mkRat_eq_div]]
    rw [goRound_intCast]
  simp only [EncodePolyline, List.map_cons, List.map_nil, h1, h2, encodeLoop,
    List.append_nil, sub_zero, encodeSigned_3850000, encodeSigned_neg12020000]
  decide

/-- Claim C4: the polyline codec round-trips every list of coordinate pairs
that are exact multiples of 1e-5 (element-for-element, hence within 1e-5);
the empty list encodes to the empty string and the empty string decodes to
the empty list; and the spec's concrete vectors hold: encoding
`[(38.5, -120.2)]` yields `"_p~iF~ps|U"`, and decoding
`"_p~iF~ps|U_ulLnnqC_mqNvxq\x60@"` yields exactly
`[(38.5, -120.2), (40.7, -120.95), (43.252, -126.453)]`. -/
theorem claim_C4 :
    (∀ points : List (ℚ × ℚ),
        (∀ p ∈ points, ∃ a b : Int,
          p.1 = mkRat a 100000 ∧ p.2 = mkRat b 100000) →
        DecodePolyline (EncodePolyline points) = points) ∧
      EncodePolyline [] = "" ∧
      DecodePolyline "" = [] ∧
      EncodePolyline [(mkRat 385 10, mkRat (-1202) 10)] = "_p~iF~ps|U" ∧
      DecodePolyline "_p~iF~ps|U_ulLnnqC_mqNvxq`@" =
        [(mkRat 385 10, mkRat (-1202) 10), (mkRat 407 10, mkRat (-12095) 100),
          (mkRat 43252 1000, mkRat (-126453) 1000)] :=
  ⟨polyline_roundtrip, by decide, by decide, encodePolyline_vector, by decide⟩

/-- Claim C4, witness: the round-trip conjunct applied to the concrete
single-point list `[(0.00001, -0.00002)]`, whose coordinates are exact
multiples of 1e-5. -/
theorem claim_C4_witness :
    DecodePolyline (EncodePolyline [(mkRat 1 100000, mkRat (-2) 100000)]) =
      [(mkRat 1 100000, mkRat (-2) 100000)] :=
  claim_C4.1 [(mkRat 1 100000, mkRat (-2) 100000)] (by
    intro p hp
    rw [List.mem_singleton] at hp
    exact ⟨1, -2, by rw [hp], by rw [hp]⟩)
